import Mathlib

/-!
Verification of the dashboard widget-layout code of this repository:
the grid compaction routine `compactLayoutsUtil`, the customize-mode
state handlers, the JSON persistence of widget layouts, the
`sanitizeKeys` load-time sanitization, and the `LeadStatusFilter`
badge rendering.  Every definition is a shallow embedding of the
corresponding TypeScript source; machine numbers are modelled as `Nat`
(grid coordinates and sizes are non-negative integers throughout the
source).
-/

/-- Width of the dashboard grid (`GRID_COLS` in the source). -/
def GRID_COLS : Nat := 12

/-- A widget layout record `{x, y, w, h}`. -/
structure Rect where
  x : Nat
  y : Nat
  w : Nat
  h : Nat
deriving DecidableEq

/-- `WidgetLayoutConfig`: a JS object mapping widget keys to layout
records, modelled as an association list in key-insertion order. -/
abbrev Config : Type := List (String × Rect)

/-- Object property read `layouts[key]` (first binding wins; JS objects
have unique keys). -/
def lookupCfg : Config → String → Option Rect
  | [], _ => none
  | (k', r) :: t, k => if k = k' then some r else lookupCfg t k

/-- Object property write `cfg[key] = r`: JS keeps the original slot of
an existing key and appends a fresh key at the end. -/
def insertCfg : Config → String → Rect → Config
  | [], k, r => [(k, r)]
  | (k', r') :: t, k, r => if k = k' then (k, r) :: t else (k', r') :: insertCfg t k r

/-- Object property delete `delete cfg[key]`. -/
def eraseCfg (cfg : Config) (k : String) : Config :=
  cfg.filter (fun p => p.1 ≠ k)

/-- Membership of a grid cell in a rectangle, as a Boolean. -/
def inRectB (r : Rect) (cx cy : Nat) : Bool :=
  decide (r.x ≤ cx) && decide (cx < r.x + r.w) && decide (r.y ≤ cy) && decide (cy < r.y + r.h)

/-- Membership of a grid cell in a rectangle, as a proposition. -/
def InRect (r : Rect) (cx cy : Nat) : Prop :=
  r.x ≤ cx ∧ cx < r.x + r.w ∧ r.y ≤ cy ∧ cy < r.y + r.h

instance (r : Rect) (cx cy : Nat) : Decidable (InRect r cx cy) := by
  unfold InRect
  infer_instance

/-- The mutable `grid` of `compactLayoutsUtil` is exactly the set of
cells covered by the rectangles passed to `occupy` so far; we model it
by the list of those rectangles.  `cellOccupied occ cx cy` is
`grid[cy]?.[cx]` being `true`. -/
def cellOccupied (occ : List Rect) (cx cy : Nat) : Bool :=
  occ.any (fun r => inRectB r cx cy)

/-- `canPlace` of `compactLayoutsUtil`: the candidate rectangle is
within the 12 columns and covers no occupied cell.  (The JS `x < 0`
test is vacuous here because coordinates are naturals.) -/
def canPlace (occ : List Rect) (x y w h : Nat) : Bool :=
  decide (x + w ≤ GRID_COLS) &&
    (List.range h).all (fun dy => (List.range w).all (fun dx => !cellOccupied occ (x + dx) (y + dy)))

/-- The double placement scan of `compactLayoutsUtil`: rows `y = 0..99`,
and inside a row columns `x = 0 .. GRID_COLS - w` (the JS loop
`for (x = 0; x <= GRID_COLS - item.w; x++)` runs not at all when
`w > GRID_COLS`, which `List.range (GRID_COLS + 1 - w)` reproduces by
truncated subtraction). -/
def findPlace (occ : List Rect) (w h : Nat) : Option (Nat × Nat) :=
  (List.range 100).findSome? (fun y =>
    ((List.range (GRID_COLS + 1 - w)).find? (fun x => canPlace occ x y w h)).map (fun x => (x, y)))

/-- JS comparator `a.y - b.y || a.x - b.x` deciding strict precedence. -/
def itemLt (a b : Rect) : Bool :=
  decide (a.y < b.y) || (decide (a.y = b.y) && decide (a.x < b.x))

/-- Insert one item into an already sorted list, after every item that
does not strictly follow it (matching a stable sort). -/
def insertItem (it : String × Rect) : List (String × Rect) → List (String × Rect)
  | [] => [it]
  | h :: t => if itemLt it.2 h.2 then it :: h :: t else h :: insertItem it t

/-- Stable sort by `(y, x)` of the input positions, the JS
`items.sort((a, b) => a.y - b.y || a.x - b.x)` (ECMAScript sort is
stable). -/
def sortItems (l : List (String × Rect)) : List (String × Rect) :=
  l.foldl (fun acc it => insertItem it acc) []

/-- `visibleKeys.filter(key => layouts[key]).map(key => ({key, ...layouts[key]}))`. -/
def itemsOf (layouts : Config) (visibleKeys : List String) : List (String × Rect) :=
  visibleKeys.filterMap (fun k => (lookupCfg layouts k).map (fun r => (k, r)))

/-- One iteration of the `items.forEach` loop of `compactLayoutsUtil`.
The state is the object built so far, the occupied rectangles, and a
flag recording whether every widget so far was placed by the scan
(false once the fallback branch has run). -/
def compactStep (acc : Config × List Rect × Bool) (it : String × Rect) : Config × List Rect × Bool :=
  match findPlace acc.2.1 it.2.w it.2.h with
  | some (x, y) =>
      (insertCfg acc.1 it.1 ⟨x, y, it.2.w, it.2.h⟩, ⟨x, y, it.2.w, it.2.h⟩ :: acc.2.1, acc.2.2)
  | none =>
      let fy := acc.1.length * 2
      (insertCfg acc.1 it.1 ⟨0, fy, it.2.w, it.2.h⟩, ⟨0, fy, it.2.w, it.2.h⟩ :: acc.2.1, false)

/-- The whole run of `compactLayoutsUtil`, also reporting whether the
fallback branch was ever taken. -/
def compactRun (layouts : Config) (visibleKeys : List String) : Config × List Rect × Bool :=
  (sortItems (itemsOf layouts visibleKeys)).foldl compactStep ([], [], true)

/-- `compactLayoutsUtil` from the source: greedy first-fit packing of
the visible widgets that have a layout, in ascending `(y, x)` order of
their input positions. -/
def compactLayoutsUtil (layouts : Config) (visibleKeys : List String) : Config :=
  (compactRun layouts visibleKeys).1

/-- True when no widget of this run went through the fallback branch
(`if (!placed) { ... }`). -/
def fallbackFree (layouts : Config) (visibleKeys : List String) : Bool :=
  (compactRun layouts visibleKeys).2.2

/-- Two rectangles share no grid cell. -/
def RectsDisjoint (r1 r2 : Rect) : Prop :=
  ∀ cx cy, InRect r1 cx cy → InRect r2 cx cy → False

/-- Invariant carried through the placement loop: every widget placed
so far is inside the 12 columns, all its cells are occupied, and two
widgets under different keys never share a cell. -/
def PlacedInv (cfg : Config) (occ : List Rect) : Prop :=
  (∀ k r, lookupCfg cfg k = some r → r.x + r.w ≤ GRID_COLS) ∧
  (∀ k r, lookupCfg cfg k = some r → ∀ cx cy, InRect r cx cy → cellOccupied occ cx cy = true) ∧
  (∀ k1 k2 r1 r2, k1 ≠ k2 → lookupCfg cfg k1 = some r1 → lookupCfg cfg k2 = some r2 →
    RectsDisjoint r1 r2)

/-- Reference notion of overlap of two widget rectangles, written from
the claim: the rectangles occupy a common grid cell.  The Boolean test
uses interval arithmetic. -/
def rectsOverlapB (r1 r2 : Rect) : Bool :=
  decide (0 < r1.w) && decide (0 < r1.h) && decide (0 < r2.w) && decide (0 < r2.h) &&
    decide (r1.x < r2.x + r2.w) && decide (r2.x < r1.x + r1.w) &&
    decide (r1.y < r2.y + r2.h) && decide (r2.y < r1.y + r1.h)

/-- Reference free-position test, written from the claim: the `w` by
`h` rectangle at `(x, y)` is in bounds and overlaps no previously
placed widget. -/
def specFreeB (placed : List Rect) (x y w h : Nat) : Bool :=
  decide (x + w ≤ GRID_COLS) && placed.all (fun r => !rectsOverlapB ⟨x, y, w, h⟩ r)

/-- Reference first-fit position, written from the claim: scan rows
`y = 0, 1, 2, ...` and inside each row columns `x = 0 .. 12 - w`, and
return the first free position.  The row scan is bounded by `fuel`;
the claim quantifies over inputs whose widgets are all placed within
rows `0..99`, where every bound of at least 100 gives the same result
(second part of the claim theorem). -/
def findPlaceSpec (fuel : Nat) (placed : List Rect) (w h : Nat) : Option (Nat × Nat) :=
  (List.range fuel).findSome? (fun y =>
    ((List.range (GRID_COLS + 1 - w)).find? (fun x => specFreeB placed x y w h)).map
      (fun x => (x, y)))

/-- Reference greedy first-fit loop, written from the claim: place each
widget in turn at its first-fit position, failing when none exists
within the scanned rows. -/
def specCompactAux (fuel : Nat) : List (String × Rect) → Config → List Rect → Option Config
  | [], cfg, _ => some cfg
  | it :: t, cfg, placed =>
      match findPlaceSpec fuel placed it.2.w it.2.h with
      | none => none
      | some (x, y) =>
          specCompactAux fuel t (insertCfg cfg it.1 ⟨x, y, it.2.w, it.2.h⟩)
            (Rect.mk x y it.2.w it.2.h :: placed)

/-- Reference first-fit packing, written from the claim: the visible
widgets that have a layout, processed in ascending `(y, x)` order of
their input positions, each placed at its first-fit position. -/
def specCompact (fuel : Nat) (L : Config) (ks : List String) : Option Config :=
  specCompactAux fuel (sortItems (itemsOf L ks)) [] []

/-- The snapshot taken by `handleEnterCustomizeMode`
(`originalState` in the source). -/
structure DashSnapshot where
  visible : List String
  order : List String
  layouts : Config

/-- The component state of `UserDashboard` relevant to customize mode. -/
structure DashState where
  visibleWidgets : List String
  widgetOrder : List String
  widgetLayouts : Config
  pendingWidgetChanges : List String
  originalState : Option DashSnapshot
  isResizeMode : Bool

/-- Toggle of a key in the pending `Set` (`next.delete/add` in both
`handleWidgetRemove` and `togglePendingWidget`); the set is modelled by
its insertion-ordered, duplicate-free element list. -/
def toggleKey (pending : List String) (k : String) : List String :=
  if k ∈ pending then pending.filter (fun x => x ≠ k) else pending ++ [k]

/-- `handleEnterCustomizeMode` from the source. -/
def handleEnterCustomizeMode (s : DashState) : DashState :=
  { s with
    originalState := some ⟨s.visibleWidgets, s.widgetOrder, s.widgetLayouts⟩,
    isResizeMode := true }

/-- `handleCancelCustomize` from the source. -/
def handleCancelCustomize (s : DashState) : DashState :=
  match s.originalState with
  | some o =>
      { s with
        visibleWidgets := o.visible, widgetOrder := o.order, widgetLayouts := o.layouts,
        pendingWidgetChanges := [], originalState := none, isResizeMode := false }
  | none =>
      { s with pendingWidgetChanges := [], originalState := none, isResizeMode := false }

/-- `handleLayoutChange` from the source: the new layouts are compacted
against the currently visible widgets. -/
def handleLayoutChange (s : DashState) (newLayouts : Config) : DashState :=
  { s with widgetLayouts := compactLayoutsUtil newLayouts s.visibleWidgets }

/-- `handleWidgetRemove` from the source (the toast is UI only). -/
def handleWidgetRemove (s : DashState) (k : String) : DashState :=
  { s with pendingWidgetChanges := toggleKey s.pendingWidgetChanges k }

/-- `togglePendingWidget` from the source. -/
def togglePendingWidget (s : DashState) (k : String) : DashState :=
  { s with pendingWidgetChanges := toggleKey s.pendingWidgetChanges k }

/-- The user interactions available while in customize mode. -/
inductive CustomizeAction where
  | layoutChange (newLayouts : Config)
  | widgetRemove (k : String)
  | pendingToggle (k : String)

/-- Dispatch of one customize-mode interaction to its handler. -/
def applyCustomizeAction (s : DashState) (a : CustomizeAction) : DashState :=
  match a with
  | .layoutChange nl => handleLayoutChange s nl
  | .widgetRemove k => handleWidgetRemove s k
  | .pendingToggle k => togglePendingWidget s k

/-- One cell test of the occupancy grid built by
`findNextGridPosition`: its `occupy` clamps columns at `COLS`
(`Math.min(layout.x + layout.w, COLS)`), unlike the grid of
`compactLayoutsUtil`. -/
def cellOccupiedClamped (rects : List Rect) (cx cy : Nat) : Bool :=
  rects.any (fun r =>
    decide (r.y ≤ cy) && decide (cy < r.y + r.h) &&
      decide (r.x ≤ cx) && decide (cx < min (r.x + r.w) GRID_COLS))

/-- `findNextGridPosition` from the source: scan rows `0..99` and
columns `0 .. COLS - widgetWidth` for the first spot whose cells are
all free, falling back to `(0, 2 * number of widgets)`. -/
def findNextGridPosition (existing : Config) (w h : Nat) : Nat × Nat :=
  let rects := existing.map Prod.snd
  match (List.range 100).findSome? (fun y =>
    ((List.range (GRID_COLS + 1 - w)).find? (fun x =>
      (List.range h).all (fun dy => (List.range w).all (fun dx =>
        !cellOccupiedClamped rects (x + dx) (y + dy))))).map (fun x => (x, y))) with
  | some p => p
  | none => (0, existing.length * 2)

/-- One iteration of the `pendingWidgetChanges.forEach` loop of
`handleSaveLayout`; `visible0` is the `visibleWidgets` state read by
the closure, the accumulator is `(finalVisible, finalOrder,
finalLayouts)`. -/
def saveStep (visible0 : List String) (acc : List String × List String × Config)
    (key : String) : List String × List String × Config :=
  if key ∈ visible0 then
    (acc.1.filter (fun w => w ≠ key), acc.2.1.filter (fun w => w ≠ key), eraseCfg acc.2.2 key)
  else
    (acc.1 ++ [key],
      if key ∈ acc.2.1 then acc.2.1 else acc.2.1 ++ [key],
      insertCfg acc.2.2 key
        ⟨(findNextGridPosition acc.2.2 3 2).1, (findNextGridPosition acc.2.2 3 2).2, 3, 2⟩)

/-- The `(finalVisible, finalOrder, finalLayouts)` computed by
`handleSaveLayout` just before compaction. -/
def saveFinals (s : DashState) : List String × List String × Config :=
  s.pendingWidgetChanges.foldl (saveStep s.visibleWidgets)
    (s.visibleWidgets, s.widgetOrder, s.widgetLayouts)

/-- `handleSaveLayout` from the source (the remote persistence call is
a network effect outside the state model). -/
def handleSaveLayout (s : DashState) : DashState :=
  { s with
    visibleWidgets := (saveFinals s).1,
    widgetOrder := (saveFinals s).2.1,
    widgetLayouts := compactLayoutsUtil (saveFinals s).2.2 (saveFinals s).1,
    pendingWidgetChanges := [],
    originalState := none,
    isResizeMode := false }

/-- Concrete dashboard state for the save-layout witness: widget
`leads` is visible and pending (toggle: remove), widget `tasks` is not
visible and pending (toggle: add). -/
def exampleSaveState : DashState :=
  { visibleWidgets := ["leads"],
    widgetOrder := ["leads"],
    widgetLayouts := [("leads", ⟨0, 0, 3, 2⟩)],
    pendingWidgetChanges := ["leads", "tasks"],
    originalState := none,
    isResizeMode := true }

/-- The loop body of `sanitizeKeys` from the load effect: keep a key
when it is allowed and not seen yet, tracking the seen set. -/
def sanAux (allowed : List String) : List String → List String → List String
  | _, [] => []
  | seen, k :: t =>
      if k ∈ allowed ∧ k ∉ seen then k :: sanAux allowed (k :: seen) t
      else sanAux allowed seen t

/-- `sanitizeKeys` from the source: drop unknown keys and duplicates,
keeping first occurrences in order. -/
def sanitizeKeys (allowed keys : List String) : List String :=
  sanAux allowed [] keys

/-- The load effect of `UserDashboard` computing
`(nextVisible, nextOrder)` from the stored `visible_widgets` and
`card_order` (absent values fall back to the defaults; the stored
values go through `sanitizeKeys`; visible keys missing from the order
are appended). -/
def loadPrefs (defaultWidgetKeys defaultVisibleWidgets : List String)
    (rawVisible rawOrder : Option (List String)) : List String × List String :=
  let nextVisible := sanitizeKeys defaultWidgetKeys (rawVisible.getD defaultVisibleWidgets)
  let nextOrderBase := sanitizeKeys defaultWidgetKeys (rawOrder.getD defaultWidgetKeys)
  let missingVisible := nextVisible.filter (fun k => k ∉ nextOrderBase)
  (nextVisible, nextOrderBase ++ missingVisible)

/-- The parts of the rendered `LeadStatusFilter` trigger relevant to
the claim: the active highlight and the optional badge with its
displayed count. -/
structure LeadStatusFilterView where
  isActive : Bool
  badgeCount : Option Nat

/-- Rendering of `LeadStatusFilter`: `isActive` is
`value !== "all"`, and the count badge, displaying the literal 1, is
rendered exactly when `isActive`. -/
def renderLeadStatusFilter (value : String) : LeadStatusFilterView :=
  { isActive := decide (value ≠ "all"),
    badgeCount := if value ≠ "all" then some 1 else none }

/-- JSON values as produced by `JSON.parse`; numbers are restricted to
the naturals occurring in layout records. -/
inductive Json where
  | null
  | bool (b : Bool)
  | num (n : Nat)
  | str (s : String)
  | arr (elems : List Json)
  | obj (fields : List (String × Json))

/-- Digit test of the number scanner. -/
def isDigitC (c : Char) : Bool :=
  decide ('0' ≤ c) && decide (c ≤ '9')

/-- Numeric value of a digit character. -/
def digitVal (c : Char) : Nat :=
  c.toNat - '0'.toNat

/-- Greedy scan of a digit run, accumulating the numeric value. -/
def parseDigits : List Char → Nat → Nat × List Char
  | [], acc => (acc, [])
  | c :: cs, acc =>
      if isDigitC c then parseDigits cs (acc * 10 + digitVal c) else (acc, c :: cs)

/-- Body of a JSON string literal up to its closing quote.  Escape
sequences are not modelled: the layouts blob only ever contains widget
keys, which need no escaping; a backslash makes the parse fail. -/
def takeStr : List Char → Option (List Char × List Char)
  | [] => none
  | c :: cs =>
      if c = '"' then some ([], cs)
      else if c = '\\' then none
      else
        match takeStr cs with
        | some (a, r) => some (c :: a, r)
        | none => none

/-- Number token after its first digit. -/
def parseNumTok (c : Char) (r : List Char) : Option (Json × List Char) :=
  some (.num (parseDigits r (digitVal c)).1, (parseDigits r (digitVal c)).2)

/-- Keyword token `null` after its first character. -/
def parseNullTok : List Char → Option (Json × List Char)
  | 'u' :: 'l' :: 'l' :: r2 => some (Json.null, r2)
  | _ => none

/-- Keyword token `true` after its first character. -/
def parseTrueTok : List Char → Option (Json × List Char)
  | 'r' :: 'u' :: 'e' :: r2 => some (Json.bool true, r2)
  | _ => none

/-- Keyword token `false` after its first character. -/
def parseFalseTok : List Char → Option (Json × List Char)
  | 'a' :: 'l' :: 's' :: 'e' :: r2 => some (Json.bool false, r2)
  | _ => none

/-- String token after its opening quote. -/
def parseStrTok (r : List Char) : Option (Json × List Char) :=
  (takeStr r).map (fun q => (Json.str (String.mk q.1), q.2))

/-- The empty array, recognized immediately after `[`. -/
def emptyArrTok : List Char → Option (Json × List Char)
  | ']' :: r2 => some (Json.arr [], r2)
  | _ => none

/-- The empty object, recognized immediately after `{`. -/
def emptyObjTok : List Char → Option (Json × List Char)
  | '}' :: r2 => some (Json.obj [], r2)
  | _ => none

mutual

/-- Recursive-descent model of `JSON.parse` on character lists (no
whitespace, integer numbers, escape-free strings), with a fuel bound on
the recursion; a `none` models the exception thrown on malformed
input. -/
def parseValue : Nat → List Char → Option (Json × List Char)
  | 0, _ => none
  | f + 1, l =>
      match l with
      | [] => none
      | c :: r =>
          if isDigitC c then parseNumTok c r
          else if c = 'n' then parseNullTok r
          else if c = 't' then parseTrueTok r
          else if c = 'f' then parseFalseTok r
          else if c = '"' then parseStrTok r
          else if c = '[' then
            (emptyArrTok r).orElse
              (fun _ => (parseElems f r).map (fun p => (Json.arr p.1, p.2)))
          else if c = '{' then
            (emptyObjTok r).orElse
              (fun _ => (parseFields f r).map (fun p => (Json.obj p.1, p.2)))
          else none

/-- Comma-separated JSON values up to the closing bracket. -/
def parseElems : Nat → List Char → Option (List Json × List Char)
  | 0, _ => none
  | f + 1, l => (parseValue f l).bind (fun p => parseElemsCont f p.1 p.2)

/-- Continuation after one array element: a comma and more elements, or
the closing bracket. -/
def parseElemsCont : Nat → Json → List Char → Option (List Json × List Char)
  | 0, _, _ => none
  | f + 1, v, l =>
      match l with
      | ',' :: r2 => (parseElems f r2).map (fun p => (v :: p.1, p.2))
      | ']' :: r2 => some ([v], r2)
      | _ => none

/-- Comma-separated JSON object members up to the closing brace. -/
def parseFields : Nat → List Char → Option (List (String × Json) × List Char)
  | 0, _ => none
  | f + 1, l =>
      match l with
      | '"' :: r => (takeStr r).bind (fun q => parseFieldsAfterKey f (String.mk q.1) q.2)
      | _ => none

/-- Continuation after one member key: a colon and the member value. -/
def parseFieldsAfterKey : Nat → String → List Char → Option (List (String × Json) × List Char)
  | 0, _, _ => none
  | f + 1, k, l =>
      match l with
      | ':' :: r3 => (parseValue f r3).bind (fun p => parseFieldsCont f k p.1 p.2)
      | _ => none

/-- Continuation after one member: a comma and more members, or the
closing brace. -/
def parseFieldsCont : Nat → String → Json → List Char →
    Option (List (String × Json) × List Char)
  | 0, _, _, _ => none
  | f + 1, k, v, l =>
      match l with
      | ',' :: r5 => (parseFields f r5).map (fun p => ((k, v) :: p.1, p.2))
      | '}' :: r5 => some ([(k, v)], r5)
      | _ => none

end

/-- Model of `JSON.parse` as used by `parseWidgetLayouts`: the whole
string must be consumed; the fuel `s.length + 1` dominates the nesting
depth of any input. -/
def jsonParse (s : String) : Option Json :=
  match parseValue (s.length + 1) s.toList with
  | some (j, []) => some j
  | _ => none

/-- Decimal digit character of a value below 10. -/
def digitChar (n : Nat) : Char :=
  Char.ofNat ('0'.toNat + n)

/-- Decimal rendering, most significant digit first. -/
def natToCharsAux : Nat → List Char → List Char
  | n, acc =>
      if h : n < 10 then digitChar n :: acc
      else natToCharsAux (n / 10) (digitChar (n % 10) :: acc)
  termination_by n _ => n
  decreasing_by
    exact Nat.div_lt_self (by omega) (by omega)

/-- Decimal rendering of a natural, as `JSON.stringify` prints it. -/
def natToChars (n : Nat) : List Char :=
  natToCharsAux n []

/-- The JSON value of one layout record. -/
def rectJson (r : Rect) : Json :=
  .obj [("x", .num r.x), ("y", .num r.y), ("w", .num r.w), ("h", .num r.h)]

/-- The JSON value of a whole layout configuration. -/
def configToJson (L : Config) : Json :=
  .obj (L.map (fun p => (p.1, rectJson p.2)))

/-- `JSON.stringify` output for one layout record. -/
def stringifyRect (r : Rect) : List Char :=
  '{' :: '"' :: 'x' :: '"' :: ':' :: natToChars r.x ++
    ',' :: '"' :: 'y' :: '"' :: ':' :: natToChars r.y ++
    ',' :: '"' :: 'w' :: '"' :: ':' :: natToChars r.w ++
    ',' :: '"' :: 'h' :: '"' :: ':' :: natToChars r.h ++ ['}']

/-- `JSON.stringify` output for the members of a layout configuration
object (no spaces, insertion order, comma separated). -/
def stringifyConfigFields : Config → List Char
  | [] => []
  | [(k, r)] => '"' :: k.toList ++ '"' :: ':' :: stringifyRect r
  | (k, r) :: p :: t =>
      ('"' :: k.toList ++ '"' :: ':' :: stringifyRect r) ++
        ',' :: stringifyConfigFields (p :: t)

/-- `JSON.stringify(layouts)` as written to `layout_view` by
`savePreferencesMutation`. -/
def stringifyConfig (L : Config) : List Char :=
  '{' :: stringifyConfigFields L ++ ['}']

/-- A key that `JSON.stringify` prints without escapes (true of every
widget key). -/
def jsonSafeKey (k : String) : Bool :=
  k.toList.all (fun c => !(decide (c = '"') || decide (c = '\\')))

/-- The stored `layout_view` field as `parseWidgetLayouts` receives it:
absent (or otherwise falsy), an object value, or a string. -/
inductive LayoutView where
  | absent
  | objVal (j : Json)
  | strVal (s : String)

/-- The check `typeof parsed === "object" && parsed !== null` (arrays
are objects to `typeof`; `null` is excluded explicitly). -/
def isObjLike : Json → Bool
  | .obj _ => true
  | .arr _ => true
  | _ => false

/-- `parseWidgetLayouts` from the source: an absent or falsy stored
value gives the empty configuration; an object value is returned as
is; a string value is parsed, kept when it is a non-null object, and
otherwise (including on a parse error) replaced by the empty
configuration. -/
def parseWidgetLayouts : LayoutView → Json
  | .absent => .obj []
  | .objVal j => j
  | .strVal s =>
      match jsonParse s with
      | some j => if isObjLike j then j else .obj []
      | none => .obj []

/-- Exact decoder of a layout record, to state that the round trip
recovers the original configuration. -/
def jsonToRect : Json → Option Rect
  | .obj [("x", .num x), ("y", .num y), ("w", .num w), ("h", .num h)] => some ⟨x, y, w, h⟩
  | _ => none

/-- Exact decoder of the members of a configuration object. -/
def jsonFieldsToConfig : List (String × Json) → Option Config
  | [] => some []
  | (k, v) :: t =>
      match jsonToRect v, jsonFieldsToConfig t with
      | some r, some c => some ((k, r) :: c)
      | _, _ => none

/-- Exact decoder of a configuration value. -/
def jsonToConfig : Json → Option Config
  | .obj fields => jsonFieldsToConfig fields
  | _ => none

/-- Value accumulated by `parseDigits` over a digit run. -/
def pushDigits (acc : Nat) (l : List Char) : Nat :=
  l.foldl (fun a c => a * 10 + digitVal c) acc

/-- Head-of-input digit test. -/
def headIsDigit : List Char → Bool
  | [] => false
  | c :: _ => isDigitC c

theorem lookupCfg_insertCfg_self (cfg : Config) (k : String) (r : Rect) :
    lookupCfg (insertCfg cfg k r) k = some r := by
  induction cfg with
  | nil => simp [insertCfg, lookupCfg]
  | cons p t ih =>
      by_cases hk : k = p.1
      · simp [insertCfg, hk, lookupCfg]
      · simp [insertCfg, hk, lookupCfg, ih]

theorem lookupCfg_insertCfg_ne (cfg : Config) (k k' : String) (r : Rect) (hne : k' ≠ k) :
    lookupCfg (insertCfg cfg k r) k' = lookupCfg cfg k' := by
  induction cfg with
  | nil => simp [insertCfg, lookupCfg, hne]
  | cons p t ih =>
      by_cases hk : k = p.1
      · subst hk
        simp [insertCfg, lookupCfg, hne]
      · by_cases hk' : k' = p.1
        · simp [insertCfg, hk, lookupCfg, hk']
        · simp [insertCfg, hk, lookupCfg, hk', ih]

theorem inRectB_iff (r : Rect) (cx cy : Nat) : inRectB r cx cy = true ↔ InRect r cx cy := by
  simp [inRectB, InRect, Bool.and_eq_true, decide_eq_true_iff, and_assoc]

theorem cellOccupied_iff (occ : List Rect) (cx cy : Nat) :
    cellOccupied occ cx cy = true ↔ ∃ r ∈ occ, InRect r cx cy := by
  simp [cellOccupied, List.any_eq_true, inRectB_iff]

theorem cellOccupied_cons_of (occ : List Rect) (r : Rect) (cx cy : Nat)
    (h : cellOccupied occ cx cy = true) : cellOccupied (r :: occ) cx cy = true := by
  rw [cellOccupied_iff] at h ⊢
  obtain ⟨r', hr', hin⟩ := h
  exact ⟨r', List.mem_cons_of_mem _ hr', hin⟩

theorem InRect_mk (x y w h cx cy : Nat) :
    InRect ⟨x, y, w, h⟩ cx cy ↔ (x ≤ cx ∧ cx < x + w ∧ y ≤ cy ∧ cy < y + h) := by
  simp [InRect]

theorem canPlace_iff (occ : List Rect) (x y w h : Nat) :
    canPlace occ x y w h = true ↔
      (x + w ≤ GRID_COLS ∧
        ∀ cx cy, x ≤ cx → cx < x + w → y ≤ cy → cy < y + h →
          cellOccupied occ cx cy = false) := by
  unfold canPlace
  rw [Bool.and_eq_true, decide_eq_true_iff]
  constructor
  · rintro ⟨hb, hall⟩
    refine ⟨hb, ?_⟩
    intro cx cy hx1 hx2 hy1 hy2
    have hall' := List.all_eq_true.mp hall (cy - y) (List.mem_range.mpr (by omega))
    have hall'' := List.all_eq_true.mp hall' (cx - x) (List.mem_range.mpr (by omega))
    have hxx : x + (cx - x) = cx := by omega
    have hyy : y + (cy - y) = cy := by omega
    rw [hxx, hyy] at hall''
    simpa using hall''
  · rintro ⟨hb, hfree⟩
    refine ⟨hb, ?_⟩
    rw [List.all_eq_true]
    intro dy hdy
    rw [List.all_eq_true]
    intro dx hdx
    have hdy' := List.mem_range.mp hdy
    have hdx' := List.mem_range.mp hdx
    have hf := hfree (x + dx) (y + dy) (by omega) (by omega) (by omega) (by omega)
    simp [hf]

theorem findSome?_eq_some {α β : Type} (f : α → Option β) :
    ∀ (l : List α) (b : β), l.findSome? f = some b → ∃ a ∈ l, f a = some b := by
  intro l
  induction l with
  | nil => intro b hb; simp [List.findSome?] at hb
  | cons a t ih =>
      intro b hb
      rw [List.findSome?] at hb
      cases hfa : f a with
      | some b' =>
          simp [hfa] at hb
          exact ⟨a, List.mem_cons_self a t, by rw [hfa, hb]⟩
      | none =>
          simp [hfa] at hb
          obtain ⟨a', ha', hfa'⟩ := ih b hb
          exact ⟨a', List.mem_cons_of_mem _ ha', hfa'⟩

theorem findPlace_canPlace (occ : List Rect) (w h x y : Nat)
    (hfp : findPlace occ w h = some (x, y)) : canPlace occ x y w h = true := by
  unfold findPlace at hfp
  obtain ⟨y', _, hy'⟩ := findSome?_eq_some _ _ _ hfp
  cases hfind : (List.range (GRID_COLS + 1 - w)).find? (fun x => canPlace occ x y' w h) with
  | none => rw [hfind] at hy'; simp at hy'
  | some x' =>
      rw [hfind] at hy'
      simp only [Option.map_some'] at hy'
      have hxy : x' = x ∧ y' = y := by
        have := hy'
        injection this with h1
        exact ⟨congrArg Prod.fst h1, congrArg Prod.snd h1⟩
      obtain ⟨hx, hy⟩ := hxy
      subst hx; subst hy
      have hcp := List.find?_some hfind
      simpa using hcp

theorem compactStep_some (cfg : Config) (occ : List Rect) (b : Bool) (it : String × Rect)
    (x y : Nat) (hfp : findPlace occ it.2.w it.2.h = some (x, y)) :
    compactStep (cfg, occ, b) it =
      (insertCfg cfg it.1 ⟨x, y, it.2.w, it.2.h⟩, Rect.mk x y it.2.w it.2.h :: occ, b) := by
  unfold compactStep
  rw [hfp]

theorem compactStep_none (cfg : Config) (occ : List Rect) (b : Bool) (it : String × Rect)
    (hfp : findPlace occ it.2.w it.2.h = none) :
    compactStep (cfg, occ, b) it =
      (insertCfg cfg it.1 ⟨0, cfg.length * 2, it.2.w, it.2.h⟩,
        Rect.mk 0 (cfg.length * 2) it.2.w it.2.h :: occ, false) := by
  unfold compactStep
  rw [hfp]

theorem flag_false_persists (items : List (String × Rect)) :
    ∀ cfg occ, (items.foldl compactStep (cfg, occ, false)).2.2 = false := by
  induction items with
  | nil => intro cfg occ; rfl
  | cons it t ih =>
      intro cfg occ
      rw [List.foldl_cons]
      cases hfp : findPlace occ it.2.w it.2.h with
      | some p =>
          cases p with
          | mk x y =>
              rw [compactStep_some _ _ _ _ _ _ hfp]
              exact ih _ _
      | none =>
          rw [compactStep_none _ _ _ _ hfp]
          exact ih _ _

theorem placedInv_step (cfg : Config) (occ : List Rect) (k : String) (x y w h : Nat)
    (hinv : PlacedInv cfg occ) (hcp : canPlace occ x y w h = true) :
    PlacedInv (insertCfg cfg k ⟨x, y, w, h⟩) (Rect.mk x y w h :: occ) := by
  obtain ⟨hb, hfree⟩ := (canPlace_iff occ x y w h).mp hcp
  obtain ⟨inv1, inv2, inv3⟩ := hinv
  refine ⟨?_, ?_, ?_⟩
  · intro k' r' hl
    by_cases hk : k' = k
    · subst hk
      rw [lookupCfg_insertCfg_self] at hl
      cases hl
      simpa using hb
    · rw [lookupCfg_insertCfg_ne _ _ _ _ hk] at hl
      exact inv1 k' r' hl
  · intro k' r' hl cx cy hin
    by_cases hk : k' = k
    · subst hk
      rw [lookupCfg_insertCfg_self] at hl
      cases hl
      rw [cellOccupied_iff]
      exact ⟨_, List.mem_cons_self _ _, hin⟩
    · rw [lookupCfg_insertCfg_ne _ _ _ _ hk] at hl
      exact cellOccupied_cons_of _ _ _ _ (inv2 k' r' hl cx cy hin)
  · intro k1 k2 r1 r2 hne hl1 hl2
    by_cases hk1 : k1 = k
    · subst hk1
      rw [lookupCfg_insertCfg_self] at hl1
      cases hl1
      have hk2 : k2 ≠ k1 := fun hh => hne hh.symm
      rw [lookupCfg_insertCfg_ne _ _ _ _ hk2] at hl2
      intro cx cy hin1 hin2
      have hocc := inv2 k2 r2 hl2 cx cy hin2
      rw [InRect_mk] at hin1
      have hf := hfree cx cy hin1.1 hin1.2.1 hin1.2.2.1 hin1.2.2.2
      rw [hf] at hocc
      exact Bool.false_ne_true hocc
    · rw [lookupCfg_insertCfg_ne _ _ _ _ hk1] at hl1
      by_cases hk2 : k2 = k
      · subst hk2
        rw [lookupCfg_insertCfg_self] at hl2
        cases hl2
        intro cx cy hin1 hin2
        have hocc := inv2 k1 r1 hl1 cx cy hin1
        rw [InRect_mk] at hin2
        have hf := hfree cx cy hin2.1 hin2.2.1 hin2.2.2.1 hin2.2.2.2
        rw [hf] at hocc
        exact Bool.false_ne_true hocc
      · rw [lookupCfg_insertCfg_ne _ _ _ _ hk2] at hl2
        exact inv3 k1 k2 r1 r2 hne hl1 hl2

theorem foldl_compactStep_safe (items : List (String × Rect)) :
    ∀ cfg occ, PlacedInv cfg occ →
      (items.foldl compactStep (cfg, occ, true)).2.2 = true →
      PlacedInv (items.foldl compactStep (cfg, occ, true)).1
        (items.foldl compactStep (cfg, occ, true)).2.1 := by
  induction items with
  | nil => intro cfg occ hinv _; exact hinv
  | cons it t ih =>
      intro cfg occ hinv hflag
      rw [List.foldl_cons] at hflag ⊢
      cases hfp : findPlace occ it.2.w it.2.h with
      | some p =>
          cases p with
          | mk x y =>
              rw [compactStep_some _ _ _ _ _ _ hfp] at hflag ⊢
              exact ih _ _ (placedInv_step _ _ _ _ _ _ _ hinv (findPlace_canPlace _ _ _ _ _ hfp)) hflag
      | none =>
          rw [compactStep_none _ _ _ _ hfp] at hflag
          rw [flag_false_persists t _ _] at hflag
          exact absurd hflag (by simp)

/-- C1 (amended).  Whenever `compactLayoutsUtil` places every widget by
its scanning loop, i.e. the fallback branch of the source is never
taken, the resulting layout is safe: every placed widget lies within
the 12-column grid (its `x` is a natural number, hence non-negative,
and `x + w ≤ 12`), and widgets stored under two different keys never
occupy a common grid cell.  The original claim, which asserts this for
every input including runs that take the fallback branch, is refuted
by the accompanying counterexample, a widget of width 13. -/
theorem compactLayoutsUtil_safe (L : Config) (ks : List String)
    (hff : fallbackFree L ks = true) :
    (∀ k r, lookupCfg (compactLayoutsUtil L ks) k = some r → r.x + r.w ≤ GRID_COLS) ∧
    (∀ k1 k2 r1 r2, k1 ≠ k2 →
      lookupCfg (compactLayoutsUtil L ks) k1 = some r1 →
      lookupCfg (compactLayoutsUtil L ks) k2 = some r2 →
      RectsDisjoint r1 r2) := by
  have hstart : PlacedInv ([] : Config) ([] : List Rect) := by
    refine ⟨?_, ?_, ?_⟩
    · intro k r hl
      simp [lookupCfg] at hl
    · intro k r hl
      simp [lookupCfg] at hl
    · intro k1 k2 r1 r2 hne hl1 hl2
      simp [lookupCfg] at hl1
  have hmain := foldl_compactStep_safe (sortItems (itemsOf L ks)) [] [] hstart hff
  exact ⟨hmain.1, hmain.2.2⟩

/-- C1 (counterexample).  A single visible widget of width 13 is not
placeable by the scan, goes through the fallback branch, and is
returned at `x = 0` with `x + w = 13 > 12`: the packed layout is not
within the 12-column grid. -/
theorem compactLayoutsUtil_unsafe_fallback :
    lookupCfg (compactLayoutsUtil [("a", ⟨0, 0, 13, 1⟩)] ["a"]) "a" = some ⟨0, 0, 13, 1⟩ ∧
    ¬(0 + 13 ≤ GRID_COLS) := by
  constructor
  · decide
  · decide

/-- Witness for `compactLayoutsUtil_safe` on a concrete fallback-free
run: widget `a` of the input is placed at `(0, 0)` with width 3, and
`0 + 3 ≤ 12`. -/
theorem compactLayoutsUtil_safe_witness :
    fallbackFree [("a", ⟨2, 5, 3, 2⟩), ("b", ⟨0, 9, 12, 1⟩)] ["a", "b"] = true ∧
    (Rect.mk 0 0 3 2).x + (Rect.mk 0 0 3 2).w ≤ GRID_COLS := by
  constructor
  · decide
  · exact (compactLayoutsUtil_safe [("a", ⟨2, 5, 3, 2⟩), ("b", ⟨0, 9, 12, 1⟩)] ["a", "b"]
      (by decide)).1 "a" ⟨0, 0, 3, 2⟩ (by decide)

theorem mem_insertItem (it a : String × Rect) (l : List (String × Rect)) :
    a ∈ insertItem it l ↔ a = it ∨ a ∈ l := by
  induction l with
  | nil => simp [insertItem]
  | cons h t ih =>
      by_cases hlt : itemLt it.2 h.2
      · simp [insertItem, hlt]
      · simp only [insertItem, hlt, if_neg, Bool.false_eq_true, not_false_iff, ite_false,
          List.mem_cons, ih]
        tauto

theorem mem_sortItems_aux (l : List (String × Rect)) :
    ∀ acc a, a ∈ l.foldl (fun acc it => insertItem it acc) acc ↔ a ∈ acc ∨ a ∈ l := by
  induction l with
  | nil => simp
  | cons h t ih =>
      intro acc a
      rw [List.foldl_cons, ih, mem_insertItem]
      simp only [List.mem_cons]
      tauto

theorem mem_sortItems (l : List (String × Rect)) (a : String × Rect) :
    a ∈ sortItems l ↔ a ∈ l := by
  unfold sortItems
  rw [mem_sortItems_aux]
  simp

theorem mem_itemsOf (L : Config) (ks : List String) (k : String) (r : Rect) :
    (k, r) ∈ itemsOf L ks ↔ k ∈ ks ∧ lookupCfg L k = some r := by
  unfold itemsOf
  rw [List.mem_filterMap]
  constructor
  · rintro ⟨a, ha, hfa⟩
    cases hla : lookupCfg L a with
    | none => rw [hla] at hfa; simp at hfa
    | some r' =>
        rw [hla] at hfa
        simp only [Option.map_some'] at hfa
        injection hfa with h1
        have hak : a = k := congrArg Prod.fst h1
        have hrr : r' = r := congrArg Prod.snd h1
        subst hak; subst hrr
        exact ⟨ha, hla⟩
  · rintro ⟨hk, hl⟩
    exact ⟨k, hk, by rw [hl]; rfl⟩

theorem compactStep_shape (cfg : Config) (occ : List Rect) (b : Bool) (it : String × Rect) :
    ∃ r b', compactStep (cfg, occ, b) it = (insertCfg cfg it.1 r, r :: occ, b') ∧
      r.w = it.2.w ∧ r.h = it.2.h := by
  unfold compactStep
  cases findPlace occ it.2.w it.2.h with
  | some p =>
      cases p with
      | mk x y => exact ⟨_, _, rfl, rfl, rfl⟩
  | none => exact ⟨_, _, rfl, rfl, rfl⟩

theorem lookupCfg_insertCfg_isSome (cfg : Config) (k k' : String) (r : Rect) :
    (lookupCfg (insertCfg cfg k r) k').isSome ↔ (k' = k ∨ (lookupCfg cfg k').isSome) := by
  by_cases hk : k' = k
  · subst hk
    rw [lookupCfg_insertCfg_self]
    simp
  · rw [lookupCfg_insertCfg_ne _ _ _ _ hk]
    simp [hk]

theorem foldl_compactStep_dom (items : List (String × Rect)) :
    ∀ cfg occ b k,
      (lookupCfg ((items.foldl compactStep (cfg, occ, b)).1) k).isSome ↔
        ((lookupCfg cfg k).isSome ∨ k ∈ items.map Prod.fst) := by
  induction items with
  | nil => intro cfg occ b k; simp
  | cons it t ih =>
      intro cfg occ b k
      rw [List.foldl_cons]
      obtain ⟨r, b', heq, _, _⟩ := compactStep_shape cfg occ b it
      rw [heq, ih, lookupCfg_insertCfg_isSome]
      simp only [List.map_cons, List.mem_cons]
      tauto

theorem foldl_compactStep_size (L : Config) (items : List (String × Rect)) :
    ∀ cfg occ b,
      (∀ p ∈ items, lookupCfg L p.1 = some p.2) →
      (∀ k r, lookupCfg cfg k = some r →
        ∃ r0, lookupCfg L k = some r0 ∧ r.w = r0.w ∧ r.h = r0.h) →
      (∀ k r, lookupCfg ((items.foldl compactStep (cfg, occ, b)).1) k = some r →
        ∃ r0, lookupCfg L k = some r0 ∧ r.w = r0.w ∧ r.h = r0.h) := by
  induction items with
  | nil => intro cfg occ b _ hcfg; exact hcfg
  | cons it t ih =>
      intro cfg occ b hitems hcfg
      rw [List.foldl_cons]
      obtain ⟨r, b', heq, hw, hh⟩ := compactStep_shape cfg occ b it
      rw [heq]
      refine ih _ _ _ (fun p hp => hitems p (List.mem_cons_of_mem _ hp)) ?_
      intro k r' hl
      by_cases hk : k = it.1
      · subst hk
        rw [lookupCfg_insertCfg_self] at hl
        cases hl
        exact ⟨it.2, hitems it (List.mem_cons_self _ _), hw, hh⟩
      · rw [lookupCfg_insertCfg_ne _ _ _ _ hk] at hl
        exact hcfg k r' hl

theorem compact_dom_isSome (L : Config) (ks : List String) (k : String) :
    (lookupCfg (compactLayoutsUtil L ks) k).isSome ↔
      (k ∈ ks ∧ (lookupCfg L k).isSome) := by
  unfold compactLayoutsUtil compactRun
  rw [foldl_compactStep_dom]
  simp only [lookupCfg, Option.isSome_none, Bool.false_eq_true, false_or]
  constructor
  · intro hk
    obtain ⟨p, hp, hfst⟩ := List.mem_map.mp hk
    obtain ⟨hmem, hl⟩ := (mem_itemsOf L ks p.1 p.2).mp ((mem_sortItems _ _).mp hp)
    subst hfst
    exact ⟨hmem, by rw [hl]; rfl⟩
  · rintro ⟨hmem, hsome⟩
    cases hl : lookupCfg L k with
    | none => rw [hl] at hsome; simp at hsome
    | some r =>
        refine List.mem_map.mpr ⟨(k, r), ?_, rfl⟩
        exact (mem_sortItems _ _).mpr ((mem_itemsOf L ks k r).mpr ⟨hmem, hl⟩)

theorem compact_lookup_none (L : Config) (ks : List String) (k : String)
    (hk : k ∉ ks) : lookupCfg (compactLayoutsUtil L ks) k = none := by
  cases hl : lookupCfg (compactLayoutsUtil L ks) k with
  | none => rfl
  | some r =>
      have : (lookupCfg (compactLayoutsUtil L ks) k).isSome := by rw [hl]; rfl
      exact absurd ((compact_dom_isSome L ks k).mp this).1 hk

theorem compact_wh (L : Config) (ks : List String) (k : String) (r r0 : Rect)
    (hout : lookupCfg (compactLayoutsUtil L ks) k = some r)
    (hin : lookupCfg L k = some r0) : r.w = r0.w ∧ r.h = r0.h := by
  have hsz := foldl_compactStep_size L (sortItems (itemsOf L ks)) [] [] true
    (fun p hp => ((mem_itemsOf L ks p.1 p.2).mp ((mem_sortItems _ _).mp hp)).2)
    (fun k r hl => by simp [lookupCfg] at hl)
    k r hout
  obtain ⟨r0', hl0, hw, hh⟩ := hsz
  rw [hin] at hl0
  injection hl0 with h0
  subst h0
  exact ⟨hw, hh⟩

/-- C3 (confirmed).  Compaction only moves widgets: the domain of the
result of `compactLayoutsUtil` is exactly the set of visible keys that
have an entry in the input configuration, and each such widget keeps
its input `w` and `h` (only `x` and `y` may change). -/
theorem compactLayoutsUtil_frame (L : Config) (ks : List String) :
    (∀ k, (lookupCfg (compactLayoutsUtil L ks) k).isSome ↔
      (k ∈ ks ∧ (lookupCfg L k).isSome)) ∧
    (∀ k r r0, lookupCfg (compactLayoutsUtil L ks) k = some r →
      lookupCfg L k = some r0 → r.w = r0.w ∧ r.h = r0.h) :=
  ⟨fun k => compact_dom_isSome L ks k, fun k r r0 hout hin => compact_wh L ks k r r0 hout hin⟩

/-- Witness for `compactLayoutsUtil_frame` on a concrete input: widget
`a` enters at size 3 by 2, is moved to `(0, 0)`, and keeps its size. -/
theorem compactLayoutsUtil_frame_witness :
    (lookupCfg (compactLayoutsUtil [("a", ⟨2, 5, 3, 2⟩)] ["a", "zz"]) "a").isSome ∧
    ((3 : Nat) = 3 ∧ (2 : Nat) = 2) := by
  constructor
  · exact (compactLayoutsUtil_frame [("a", ⟨2, 5, 3, 2⟩)] ["a", "zz"]).1 "a"
      |>.mpr ⟨by decide, by decide⟩
  · exact (compactLayoutsUtil_frame [("a", ⟨2, 5, 3, 2⟩)] ["a", "zz"]).2 "a"
      ⟨0, 0, 3, 2⟩ ⟨2, 5, 3, 2⟩ (by decide) (by decide)

theorem rectsOverlapB_iff (r1 r2 : Rect) :
    rectsOverlapB r1 r2 = true ↔ ∃ cx cy, InRect r1 cx cy ∧ InRect r2 cx cy := by
  unfold rectsOverlapB InRect
  simp only [Bool.and_eq_true, decide_eq_true_iff]
  constructor
  · rintro ⟨⟨⟨⟨⟨⟨⟨h1, h2⟩, h3⟩, h4⟩, h5⟩, h6⟩, h7⟩, h8⟩
    exact ⟨max r1.x r2.x, max r1.y r2.y,
      ⟨by omega, by omega, by omega, by omega⟩, ⟨by omega, by omega, by omega, by omega⟩⟩
  · rintro ⟨cx, cy, ⟨a1, a2, a3, a4⟩, ⟨b1, b2, b3, b4⟩⟩
    refine ⟨⟨⟨⟨⟨⟨⟨?_, ?_⟩, ?_⟩, ?_⟩, ?_⟩, ?_⟩, ?_⟩, ?_⟩ <;> omega

theorem canPlace_eq_specFreeB (occ : List Rect) (x y w h : Nat) :
    canPlace occ x y w h = specFreeB occ x y w h := by
  rw [Bool.eq_iff_iff, canPlace_iff]
  unfold specFreeB
  simp only [Bool.and_eq_true, decide_eq_true_iff, List.all_eq_true, Bool.not_eq_true']
  constructor
  · rintro ⟨hb, hfree⟩
    refine ⟨hb, ?_⟩
    intro r hr
    rw [← Bool.not_eq_true, rectsOverlapB_iff]
    rintro ⟨cx, cy, hin1, hin2⟩
    rw [InRect_mk] at hin1
    have hf := hfree cx cy hin1.1 hin1.2.1 hin1.2.2.1 hin1.2.2.2
    have : cellOccupied occ cx cy = true := (cellOccupied_iff occ cx cy).mpr ⟨r, hr, hin2⟩
    rw [hf] at this
    exact Bool.false_ne_true this
  · rintro ⟨hb, hnov⟩
    refine ⟨hb, ?_⟩
    intro cx cy hx1 hx2 hy1 hy2
    rw [← Bool.not_eq_true, cellOccupied_iff]
    rintro ⟨r, hr, hin⟩
    have hf := hnov r hr
    rw [← Bool.not_eq_true, rectsOverlapB_iff] at hf
    exact hf ⟨cx, cy, (InRect_mk x y w h cx cy).mpr ⟨hx1, hx2, hy1, hy2⟩, hin⟩

theorem find?_congr {α : Type} (p q : α → Bool) (hpq : ∀ a, p a = q a) :
    ∀ l : List α, l.find? p = l.find? q := by
  intro l
  induction l with
  | nil => rfl
  | cons a t ih =>
      rw [List.find?_cons, List.find?_cons, hpq]
      cases q a with
      | true => rfl
      | false => exact ih

theorem findSome?_congr {α β : Type} (f g : α → Option β) (hfg : ∀ a, f a = g a) :
    ∀ l : List α, l.findSome? f = l.findSome? g := by
  intro l
  induction l with
  | nil => rfl
  | cons a t ih =>
      rw [List.findSome?, List.findSome?, hfg]
      cases g a with
      | some b => rfl
      | none => exact ih

theorem findPlace_eq_findPlaceSpec (occ : List Rect) (w h : Nat) :
    findPlace occ w h = findPlaceSpec 100 occ w h := by
  unfold findPlace findPlaceSpec
  exact findSome?_congr _ _
    (fun y => by rw [find?_congr _ _ (fun x => canPlace_eq_specFreeB occ x y w h)]) _

theorem findSome?_append_some {α β : Type} (f : α → Option β) (l l' : List α) (b : β)
    (hl : l.findSome? f = some b) : (l ++ l').findSome? f = some b := by
  induction l with
  | nil => simp [List.findSome?] at hl
  | cons a t ih =>
      rw [List.cons_append, List.findSome?]
      rw [List.findSome?] at hl
      cases hfa : f a with
      | some b' => rw [hfa] at hl; rw [hl]
      | none => rw [hfa] at hl; exact ih hl

theorem findPlaceSpec_fuel_mono (fuel fuel' : Nat) (occ : List Rect) (w h : Nat)
    (p : Nat × Nat) (hle : fuel ≤ fuel') (hfp : findPlaceSpec fuel occ w h = some p) :
    findPlaceSpec fuel' occ w h = some p := by
  unfold findPlaceSpec at hfp ⊢
  have hsplit : fuel' = fuel + (fuel' - fuel) := by omega
  rw [hsplit, List.range_add]
  exact findSome?_append_some _ _ _ _ hfp

theorem specCompactAux_code (items : List (String × Rect)) :
    ∀ cfg occ b out, specCompactAux 100 items cfg occ = some out →
      (items.foldl compactStep (cfg, occ, b)).1 = out ∧
      (items.foldl compactStep (cfg, occ, b)).2.2 = b := by
  induction items with
  | nil =>
      intro cfg occ b out hs
      unfold specCompactAux at hs
      injection hs with hs
      exact ⟨hs, rfl⟩
  | cons it t ih =>
      intro cfg occ b out hs
      unfold specCompactAux at hs
      cases hfs : findPlaceSpec 100 occ it.2.w it.2.h with
      | none => rw [hfs] at hs; simp at hs
      | some p =>
          cases p with
          | mk x y =>
              rw [hfs] at hs
              simp only at hs
              have hfp : findPlace occ it.2.w it.2.h = some (x, y) := by
                rw [findPlace_eq_findPlaceSpec, hfs]
              rw [List.foldl_cons, compactStep_some _ _ _ _ _ _ hfp]
              exact ih _ _ _ _ hs

theorem specCompactAux_fuel_mono (items : List (String × Rect)) :
    ∀ fuel cfg occ out, 100 ≤ fuel → specCompactAux 100 items cfg occ = some out →
      specCompactAux fuel items cfg occ = some out := by
  induction items with
  | nil => intro fuel cfg occ out _ hs; exact hs
  | cons it t ih =>
      intro fuel cfg occ out hfuel hs
      unfold specCompactAux at hs ⊢
      cases hfs : findPlaceSpec 100 occ it.2.w it.2.h with
      | none => rw [hfs] at hs; simp at hs
      | some p =>
          cases p with
          | mk x y =>
              rw [hfs] at hs
              simp only at hs
              rw [findPlaceSpec_fuel_mono 100 fuel _ _ _ _ hfuel hfs]
              exact ih fuel _ _ out hfuel hs

/-- C2 (confirmed).  `compactLayoutsUtil` implements greedy first-fit
packing: on every input whose widgets all find a first-fit position
within rows `0..99` (that is, the reference first-fit packing
`specCompact` succeeds with row bound 100), the output of the source
function equals the reference result, and the reference result is the
same for every row bound of at least 100 (so the bounded scan agrees
with the unbounded scan `y = 0, 1, 2, ...` of the claim). -/
theorem compactLayoutsUtil_eq_firstFit (L : Config) (ks : List String) (out : Config)
    (hspec : specCompact 100 L ks = some out) :
    compactLayoutsUtil L ks = out ∧
    (∀ fuel, 100 ≤ fuel → specCompact fuel L ks = some out) := by
  constructor
  · exact (specCompactAux_code (sortItems (itemsOf L ks)) [] [] true out hspec).1
  · intro fuel hfuel
    exact specCompactAux_fuel_mono (sortItems (itemsOf L ks)) fuel [] [] out hfuel hspec

/-- Witness for `compactLayoutsUtil_eq_firstFit` on a concrete input:
the reference packing succeeds and the code output matches it. -/
theorem compactLayoutsUtil_eq_firstFit_witness :
    specCompact 100 [("a", ⟨2, 5, 3, 2⟩), ("b", ⟨0, 9, 12, 1⟩)] ["a", "b"] =
      some [("a", ⟨0, 0, 3, 2⟩), ("b", ⟨0, 2, 12, 1⟩)] ∧
    compactLayoutsUtil [("a", ⟨2, 5, 3, 2⟩), ("b", ⟨0, 9, 12, 1⟩)] ["a", "b"] =
      [("a", ⟨0, 0, 3, 2⟩), ("b", ⟨0, 2, 12, 1⟩)] := by
  constructor
  · decide
  · exact (compactLayoutsUtil_eq_firstFit _ _ _ (by decide)).1

theorem insertItem_perm (it : String × Rect) (l : List (String × Rect)) :
    (insertItem it l).Perm (it :: l) := by
  induction l with
  | nil => exact List.Perm.refl _
  | cons h t ih =>
      by_cases hlt : itemLt it.2 h.2
      · simp only [insertItem, hlt, if_pos]
        exact List.Perm.refl _
      · simp only [insertItem, hlt, Bool.false_eq_true, not_false_iff, ite_false]
        exact (List.Perm.cons h ih).trans (List.Perm.swap it h t)

theorem sortItems_perm_aux (l : List (String × Rect)) :
    ∀ acc, (l.foldl (fun acc it => insertItem it acc) acc).Perm (acc ++ l) := by
  induction l with
  | nil => intro acc; simp
  | cons h t ih =>
      intro acc
      rw [List.foldl_cons]
      refine (ih (insertItem h acc)).trans ?_
      refine (List.Perm.append_right t (insertItem_perm h acc)).trans ?_
      exact (List.perm_middle).symm

theorem sortItems_perm (l : List (String × Rect)) : (sortItems l).Perm l := by
  unfold sortItems
  simpa using sortItems_perm_aux l []

theorem itemsOf_keys (L : Config) (ks : List String) :
    (itemsOf L ks).map Prod.fst = ks.filter (fun k => (lookupCfg L k).isSome) := by
  induction ks with
  | nil => rfl
  | cons k t ih =>
      unfold itemsOf at ih ⊢
      rw [List.filterMap_cons, List.filter_cons]
      cases hl : lookupCfg L k with
      | none => simpa [hl] using ih
      | some r => simpa [hl] using ih

theorem sortItems_keys_nodup (L : Config) (ks : List String) (hnd : ks.Nodup) :
    ((sortItems (itemsOf L ks)).map Prod.fst).Nodup := by
  have hperm : ((sortItems (itemsOf L ks)).map Prod.fst).Perm ((itemsOf L ks).map Prod.fst) :=
    (sortItems_perm (itemsOf L ks)).map Prod.fst
  refine hperm.symm.nodup ?_
  rw [itemsOf_keys]
  exact List.Nodup.filter _ hnd

theorem lookupCfg_foldl_not_mem (items : List (String × Rect)) :
    ∀ cfg occ b k, k ∉ items.map Prod.fst →
      lookupCfg ((items.foldl compactStep (cfg, occ, b)).1) k = lookupCfg cfg k := by
  induction items with
  | nil => intro cfg occ b k _; rfl
  | cons it t ih =>
      intro cfg occ b k hk
      rw [List.map_cons, List.mem_cons] at hk
      push_neg at hk
      rw [List.foldl_cons]
      obtain ⟨r, b', heq, _, _⟩ := compactStep_shape cfg occ b it
      rw [heq, ih _ _ _ _ hk.2, lookupCfg_insertCfg_ne _ _ _ _ hk.1]

theorem foldl_compactStep_replay (items1 : List (String × Rect)) :
    ∀ (items2 : List (String × Rect)) (cfg : Config) (occ : List Rect) (b1 b2 : Bool),
      (items1.map Prod.fst).Nodup →
      items2.map Prod.fst = items1.map Prod.fst →
      (∀ p ∈ items2, lookupCfg ((items1.foldl compactStep (cfg, occ, b1)).1) p.1 = some p.2) →
      (items2.foldl compactStep (cfg, occ, b2)).1 = (items1.foldl compactStep (cfg, occ, b1)).1 := by
  induction items1 with
  | nil =>
      intro items2 cfg occ b1 b2 _ hkeys _
      have : items2 = [] := by
        cases items2 with
        | nil => rfl
        | cons a t => simp at hkeys
      rw [this]
      rfl
  | cons it1 t1 ih =>
      intro items2 cfg occ b1 b2 hnd hkeys hlook
      cases items2 with
      | nil => simp at hkeys
      | cons it2 t2 =>
          rw [List.map_cons, List.map_cons] at hkeys
          have hk12 : it2.1 = it1.1 := by
            injection hkeys
          have htkeys : t2.map Prod.fst = t1.map Prod.fst := by
            injection hkeys
          rw [List.map_cons, List.nodup_cons] at hnd
          obtain ⟨hk1t, hndt⟩ := hnd
          rw [List.foldl_cons, List.foldl_cons]
          cases hfp : findPlace occ it1.2.w it1.2.h with
          | some p =>
              cases p with
              | mk x y =>
                  rw [compactStep_some _ _ _ _ _ _ hfp]
                  have hr2 : it2.2 = Rect.mk x y it1.2.w it1.2.h := by
                    have hl := hlook it2 (List.mem_cons_self _ _)
                    rw [List.foldl_cons, compactStep_some _ _ _ _ _ _ hfp] at hl
                    rw [hk12, lookupCfg_foldl_not_mem t1 _ _ _ _ hk1t,
                      lookupCfg_insertCfg_self] at hl
                    injection hl with hl
                    exact hl.symm
                  have hfp2 : findPlace occ it2.2.w it2.2.h = some (x, y) := by
                    rw [hr2]; exact hfp
                  rw [compactStep_some _ _ _ _ _ _ hfp2, hk12, hr2]
                  refine ih t2 _ _ _ _ hndt htkeys ?_
                  intro p hp
                  have := hlook p (List.mem_cons_of_mem _ hp)
                  rw [List.foldl_cons, compactStep_some _ _ _ _ _ _ hfp] at this
                  exact this
          | none =>
              rw [compactStep_none _ _ _ _ hfp]
              have hr2 : it2.2 = Rect.mk 0 (cfg.length * 2) it1.2.w it1.2.h := by
                have hl := hlook it2 (List.mem_cons_self _ _)
                rw [List.foldl_cons, compactStep_none _ _ _ _ hfp] at hl
                rw [hk12, lookupCfg_foldl_not_mem t1 _ _ _ _ hk1t,
                  lookupCfg_insertCfg_self] at hl
                injection hl with hl
                exact hl.symm
              have hfp2 : findPlace occ it2.2.w it2.2.h = none := by
                rw [hr2]; exact hfp
              rw [compactStep_none _ _ _ _ hfp2, hk12, hr2]
              refine ih t2 _ _ _ _ hndt htkeys ?_
              intro p hp
              have := hlook p (List.mem_cons_of_mem _ hp)
              rw [List.foldl_cons, compactStep_none _ _ _ _ hfp] at this
              exact this

/-- C4 (counterexample).  Compaction is not idempotent: on this
three-widget input the first pass (processing order `b, a, c` by input
positions) packs `c` at `(11, 0)`, the second pass (processing order
`b, c, a` by the compacted positions) packs `c` at `(5, 0)` and pushes
`a` down, so a second pass changes the arrangement. -/
theorem compactLayoutsUtil_not_idempotent :
    compactLayoutsUtil
        (compactLayoutsUtil [("a", ⟨2, 0, 11, 2⟩), ("b", ⟨0, 0, 5, 1⟩), ("c", ⟨0, 3, 1, 2⟩)]
          ["a", "b", "c"])
        ["a", "b", "c"] ≠
      compactLayoutsUtil [("a", ⟨2, 0, 11, 2⟩), ("b", ⟨0, 0, 5, 1⟩), ("c", ⟨0, 3, 1, 2⟩)]
        ["a", "b", "c"] := by
  decide

/-- C4 (amended).  An arrangement produced by the gap-removal pass is a
fixed point of a second pass whenever the visible keys contain no
duplicates and the second pass processes the widgets in the same order
as the first, i.e. sorting the compacted positions by `(y, x)` lists
the keys exactly as sorting the input positions did.  Without that
order condition idempotence fails, as the accompanying counterexample
shows. -/
theorem compactLayoutsUtil_idempotent_of_same_order (L : Config) (ks : List String)
    (hnd : ks.Nodup)
    (horder : (sortItems (itemsOf (compactLayoutsUtil L ks) ks)).map Prod.fst =
      (sortItems (itemsOf L ks)).map Prod.fst) :
    compactLayoutsUtil (compactLayoutsUtil L ks) ks = compactLayoutsUtil L ks := by
  unfold compactLayoutsUtil compactRun
  refine foldl_compactStep_replay (sortItems (itemsOf L ks))
    (sortItems (itemsOf (compactLayoutsUtil L ks) ks)) [] [] true true
    (sortItems_keys_nodup L ks hnd) horder ?_
  intro p hp
  have hmem := (mem_sortItems _ _).mp hp
  exact ((mem_itemsOf _ ks p.1 p.2).mp hmem).2

/-- Witness for `compactLayoutsUtil_idempotent_of_same_order` on a
concrete input whose processing order is preserved by compaction. -/
theorem compactLayoutsUtil_idempotent_of_same_order_witness :
    (["a", "b"] : List String).Nodup ∧
    compactLayoutsUtil
        (compactLayoutsUtil [("a", ⟨0, 0, 12, 2⟩), ("b", ⟨0, 5, 3, 2⟩)] ["a", "b"]) ["a", "b"] =
      compactLayoutsUtil [("a", ⟨0, 0, 12, 2⟩), ("b", ⟨0, 5, 3, 2⟩)] ["a", "b"] := by
  constructor
  · decide
  · exact compactLayoutsUtil_idempotent_of_same_order
      [("a", ⟨0, 0, 12, 2⟩), ("b", ⟨0, 5, 3, 2⟩)] ["a", "b"] (by decide) (by decide)

theorem applyCustomizeAction_originalState (s : DashState) (a : CustomizeAction) :
    (applyCustomizeAction s a).originalState = s.originalState := by
  cases a <;> rfl

theorem foldl_customize_originalState (acts : List CustomizeAction) :
    ∀ s : DashState, (acts.foldl applyCustomizeAction s).originalState = s.originalState := by
  induction acts with
  | nil => intro s; rfl
  | cons a t ih =>
      intro s
      rw [List.foldl_cons, ih, applyCustomizeAction_originalState]

/-- C5 (confirmed).  Customize mode is atomic under cancellation: after
`handleEnterCustomizeMode` takes its snapshot, any sequence of layout
changes and pending add/remove toggles followed by
`handleCancelCustomize` restores `visibleWidgets`, `widgetOrder` and
`widgetLayouts` to their values at the snapshot, clears the pending
set, and leaves resize mode. -/
theorem customizeMode_cancel_restores (s : DashState) (acts : List CustomizeAction) :
    (handleCancelCustomize (acts.foldl applyCustomizeAction
        (handleEnterCustomizeMode s))).visibleWidgets = s.visibleWidgets ∧
    (handleCancelCustomize (acts.foldl applyCustomizeAction
        (handleEnterCustomizeMode s))).widgetOrder = s.widgetOrder ∧
    (handleCancelCustomize (acts.foldl applyCustomizeAction
        (handleEnterCustomizeMode s))).widgetLayouts = s.widgetLayouts ∧
    (handleCancelCustomize (acts.foldl applyCustomizeAction
        (handleEnterCustomizeMode s))).pendingWidgetChanges = [] ∧
    (handleCancelCustomize (acts.foldl applyCustomizeAction
        (handleEnterCustomizeMode s))).isResizeMode = false := by
  have horig : (acts.foldl applyCustomizeAction (handleEnterCustomizeMode s)).originalState =
      some ⟨s.visibleWidgets, s.widgetOrder, s.widgetLayouts⟩ := by
    rw [foldl_customize_originalState]
    rfl
  unfold handleCancelCustomize
  rw [horig]
  exact ⟨rfl, rfl, rfl, rfl, rfl⟩

theorem lookupCfg_eraseCfg_self (cfg : Config) (k : String) :
    lookupCfg (eraseCfg cfg k) k = none := by
  induction cfg with
  | nil => rfl
  | cons p t ih =>
      unfold eraseCfg at ih ⊢
      rw [List.filter_cons]
      by_cases hp : p.1 = k
      · simpa [hp] using ih
      · simpa [hp, lookupCfg, Ne.symm hp] using ih

theorem lookupCfg_eraseCfg_ne (cfg : Config) (k k' : String) (hne : k' ≠ k) :
    lookupCfg (eraseCfg cfg k) k' = lookupCfg cfg k' := by
  induction cfg with
  | nil => rfl
  | cons p t ih =>
      unfold eraseCfg at ih ⊢
      rw [List.filter_cons]
      by_cases hp : p.1 = k
      · simpa [hp, lookupCfg, hne] using ih
      · by_cases hk' : k' = p.1
        · simp [hp, lookupCfg, hk']
        · simpa [hp, lookupCfg, hk'] using ih

theorem saveStep_mem_visible (visible0 : List String)
    (acc : List String × List String × Config) (key : String) (hv : key ∈ visible0) :
    saveStep visible0 acc key =
      (acc.1.filter (fun w => w ≠ key), acc.2.1.filter (fun w => w ≠ key),
        eraseCfg acc.2.2 key) := by
  unfold saveStep
  rw [if_pos hv]

theorem saveStep_not_visible (visible0 : List String)
    (acc : List String × List String × Config) (key : String) (hv : key ∉ visible0) :
    saveStep visible0 acc key =
      (acc.1 ++ [key],
        if key ∈ acc.2.1 then acc.2.1 else acc.2.1 ++ [key],
        insertCfg acc.2.2 key
          ⟨(findNextGridPosition acc.2.2 3 2).1, (findNextGridPosition acc.2.2 3 2).2, 3, 2⟩) := by
  unfold saveStep
  rw [if_neg hv]

theorem saveStep_preserves (visible0 : List String) (l : List String) :
    ∀ (acc : List String × List String × Config) (k : String), k ∉ l →
      (k ∈ (l.foldl (saveStep visible0) acc).1 ↔ k ∈ acc.1) ∧
      (k ∈ (l.foldl (saveStep visible0) acc).2.1 ↔ k ∈ acc.2.1) ∧
      lookupCfg (l.foldl (saveStep visible0) acc).2.2 k = lookupCfg acc.2.2 k := by
  induction l with
  | nil => intro acc k _; exact ⟨Iff.rfl, Iff.rfl, rfl⟩
  | cons key t ih =>
      intro acc k hk
      rw [List.mem_cons] at hk
      push_neg at hk
      obtain ⟨hkey, hkt⟩ := hk
      rw [List.foldl_cons]
      obtain ⟨ih1, ih2, ih3⟩ := ih (saveStep visible0 acc key) k hkt
      refine ⟨ih1.trans ?_, ih2.trans ?_, ih3.trans ?_⟩
      · unfold saveStep
        by_cases hv : key ∈ visible0
        · simp [hv, List.mem_filter, hkey]
        · simp [hv, hkey]
      · unfold saveStep
        by_cases hv : key ∈ visible0
        · simp [hv, List.mem_filter, hkey]
        · by_cases ho : key ∈ acc.2.1
          · simp [hv, ho]
          · simp [hv, ho, hkey]
      · unfold saveStep
        by_cases hv : key ∈ visible0
        · rw [if_pos hv]
          exact lookupCfg_eraseCfg_ne _ _ _ hkey
        · rw [if_neg hv]
          exact lookupCfg_insertCfg_ne _ _ _ _ hkey

theorem saveFoldl_removes (visible0 : List String) (l : List String) :
    ∀ (acc : List String × List String × Config) (k : String),
      k ∈ l → l.Nodup → k ∈ visible0 →
      k ∉ (l.foldl (saveStep visible0) acc).1 ∧
      k ∉ (l.foldl (saveStep visible0) acc).2.1 ∧
      lookupCfg (l.foldl (saveStep visible0) acc).2.2 k = none := by
  induction l with
  | nil => intro acc k hk _ _; simp at hk
  | cons key t ih =>
      intro acc k hk hnd hv0
      rw [List.nodup_cons] at hnd
      rw [List.foldl_cons]
      by_cases hkey : k = key
      · subst hkey
        obtain ⟨p1, p2, p3⟩ := saveStep_preserves visible0 t (saveStep visible0 acc k) k hnd.1
        refine ⟨?_, ?_, ?_⟩
        · intro hmem
          have hmem2 := p1.mp hmem
          rw [saveStep_mem_visible _ _ _ hv0] at hmem2
          simp [List.mem_filter] at hmem2
        · intro hmem
          have hmem2 := p2.mp hmem
          rw [saveStep_mem_visible _ _ _ hv0] at hmem2
          simp [List.mem_filter] at hmem2
        · rw [p3, saveStep_mem_visible _ _ _ hv0]
          exact lookupCfg_eraseCfg_self _ _
      · have hkt : k ∈ t := by
          rcases List.mem_cons.mp hk with h | h
          · exact absurd h hkey
          · exact h
        exact ih (saveStep visible0 acc key) k hkt hnd.2 hv0

theorem saveFoldl_adds (visible0 : List String) (l : List String) :
    ∀ (acc : List String × List String × Config) (k : String),
      k ∈ l → l.Nodup → k ∉ visible0 →
      k ∈ (l.foldl (saveStep visible0) acc).1 ∧
      k ∈ (l.foldl (saveStep visible0) acc).2.1 ∧
      ∃ x y, lookupCfg (l.foldl (saveStep visible0) acc).2.2 k = some ⟨x, y, 3, 2⟩ := by
  induction l with
  | nil => intro acc k hk _ _; simp at hk
  | cons key t ih =>
      intro acc k hk hnd hv0
      rw [List.nodup_cons] at hnd
      rw [List.foldl_cons]
      by_cases hkey : k = key
      · subst hkey
        obtain ⟨p1, p2, p3⟩ := saveStep_preserves visible0 t (saveStep visible0 acc k) k hnd.1
        refine ⟨?_, ?_, ?_⟩
        · rw [p1, saveStep_not_visible _ _ _ hv0]
          simp
        · rw [p2, saveStep_not_visible _ _ _ hv0]
          by_cases ho : k ∈ acc.2.1
          · simp [ho]
          · simp [ho]
        · exact ⟨_, _, by
            rw [p3, saveStep_not_visible _ _ _ hv0]
            exact lookupCfg_insertCfg_self _ _ _⟩
      · have hkt : k ∈ t := by
          rcases List.mem_cons.mp hk with h | h
          · exact absurd h hkey
          · exact h
        exact ih (saveStep visible0 acc key) k hkt hnd.2 hv0

/-- C6 (confirmed).  `handleSaveLayout` applies the pending set as a
toggle against the visibility at call time: a pending key that is
currently visible disappears from the final visible list, final order
and final layouts; a pending key that is not currently visible is
added to the final visible list and final order and receives a 3-wide
by 2-high layout at the next free grid position (its compacted layout
keeps that size); keys not in the pending set keep their visibility;
the final layouts are the compaction of the computed ones; the pending
set is cleared. -/
theorem handleSaveLayout_spec (s : DashState) (hnd : s.pendingWidgetChanges.Nodup) :
    (∀ k, k ∈ s.pendingWidgetChanges → k ∈ s.visibleWidgets →
      k ∉ (handleSaveLayout s).visibleWidgets ∧
      k ∉ (handleSaveLayout s).widgetOrder ∧
      lookupCfg (handleSaveLayout s).widgetLayouts k = none) ∧
    (∀ k, k ∈ s.pendingWidgetChanges → k ∉ s.visibleWidgets →
      k ∈ (handleSaveLayout s).visibleWidgets ∧
      k ∈ (handleSaveLayout s).widgetOrder ∧
      (∃ x y, lookupCfg (saveFinals s).2.2 k = some ⟨x, y, 3, 2⟩) ∧
      (∃ x y, lookupCfg (handleSaveLayout s).widgetLayouts k = some ⟨x, y, 3, 2⟩)) ∧
    (∀ k, k ∉ s.pendingWidgetChanges →
      (k ∈ (handleSaveLayout s).visibleWidgets ↔ k ∈ s.visibleWidgets)) ∧
    (handleSaveLayout s).widgetLayouts =
      compactLayoutsUtil (saveFinals s).2.2 (saveFinals s).1 ∧
    (handleSaveLayout s).pendingWidgetChanges = [] := by
  refine ⟨?_, ?_, ?_, rfl, rfl⟩
  · intro k hp hv
    obtain ⟨h1, h2, h3⟩ := saveFoldl_removes s.visibleWidgets s.pendingWidgetChanges
      (s.visibleWidgets, s.widgetOrder, s.widgetLayouts) k hp hnd hv
    refine ⟨h1, h2, ?_⟩
    exact compact_lookup_none _ _ _ h1
  · intro k hp hv
    obtain ⟨h1, h2, h3⟩ := saveFoldl_adds s.visibleWidgets s.pendingWidgetChanges
      (s.visibleWidgets, s.widgetOrder, s.widgetLayouts) k hp hnd hv
    obtain ⟨x, y, hxy⟩ := h3
    unfold saveFinals
    refine ⟨h1, h2, ⟨x, y, hxy⟩, ?_⟩
    have hdom : (lookupCfg (compactLayoutsUtil (saveFinals s).2.2 (saveFinals s).1) k).isSome :=
      (compact_dom_isSome _ _ k).mpr ⟨h1, by unfold saveFinals; rw [hxy]; rfl⟩
    cases hlc : lookupCfg (compactLayoutsUtil (saveFinals s).2.2 (saveFinals s).1) k with
    | none => rw [hlc] at hdom; simp at hdom
    | some r =>
        obtain ⟨hw, hh⟩ := compact_wh (saveFinals s).2.2 (saveFinals s).1 k r ⟨x, y, 3, 2⟩ hlc hxy
        cases r with
        | mk rx ry rw rh =>
            simp only at hw hh
            subst hw; subst hh
            exact ⟨rx, ry, hlc⟩
  · intro k hp
    exact (saveStep_preserves s.visibleWidgets s.pendingWidgetChanges
      (s.visibleWidgets, s.widgetOrder, s.widgetLayouts) k hp).1

/-- Witness for `handleSaveLayout_spec` on `exampleSaveState`. -/
theorem handleSaveLayout_spec_witness :
    (exampleSaveState.pendingWidgetChanges).Nodup ∧
    "leads" ∉ (handleSaveLayout exampleSaveState).visibleWidgets ∧
    "tasks" ∈ (handleSaveLayout exampleSaveState).visibleWidgets := by
  refine ⟨by decide, ?_, ?_⟩
  · exact ((handleSaveLayout_spec exampleSaveState (by decide)).1 "leads"
      (by decide) (by decide)).1
  · exact ((handleSaveLayout_spec exampleSaveState (by decide)).2.1 "tasks"
      (by decide) (by decide)).1

theorem mem_sanAux (allowed : List String) (l : List String) :
    ∀ seen k, k ∈ sanAux allowed seen l ↔ (k ∈ l ∧ k ∈ allowed ∧ k ∉ seen) := by
  induction l with
  | nil => intro seen k; simp [sanAux]
  | cons h t ih =>
      intro seen k
      unfold sanAux
      by_cases hc : h ∈ allowed ∧ h ∉ seen
      · rw [if_pos hc]
        rw [List.mem_cons, ih (h :: seen) k]
        by_cases hk : k = h
        · subst hk
          simp [hc.1, hc.2]
        · simp only [hk, false_or, List.mem_cons]
      · rw [if_neg hc]
        rw [ih seen k]
        by_cases hk : k = h
        · subst hk
          constructor
          · rintro ⟨_, ha, hs⟩
            exact ⟨List.mem_cons_self _ _, ha, hs⟩
          · rintro ⟨_, ha, hs⟩
            exact absurd ⟨ha, hs⟩ hc
        · simp [hk]

theorem nodup_sanAux (allowed : List String) (l : List String) :
    ∀ seen, (sanAux allowed seen l).Nodup := by
  induction l with
  | nil => intro seen; simp [sanAux]
  | cons h t ih =>
      intro seen
      unfold sanAux
      by_cases hc : h ∈ allowed ∧ h ∉ seen
      · rw [if_pos hc, List.nodup_cons]
        refine ⟨?_, ih (h :: seen)⟩
        intro hmem
        have := ((mem_sanAux allowed t (h :: seen) h).mp hmem).2.2
        exact this (List.mem_cons_self _ _)
      · rw [if_neg hc]
        exact ih seen

theorem sanAux_sublist (allowed : List String) (l : List String) :
    ∀ seen, (sanAux allowed seen l).Sublist l := by
  induction l with
  | nil => intro seen; simp [sanAux]
  | cons h t ih =>
      intro seen
      unfold sanAux
      by_cases hc : h ∈ allowed ∧ h ∉ seen
      · rw [if_pos hc]
        exact List.Sublist.cons₂ h (ih (h :: seen))
      · rw [if_neg hc]
        exact List.Sublist.cons h (ih seen)

/-- C10 (confirmed).  After the load effect runs, the visible list and
the order list contain only keys of `DEFAULT_WIDGETS`, each at most
once; the visible list and the sanitized order base preserve
first-occurrence order of the respective stored value (they are
sublists of it); the order is the sanitized base followed by the
missing visible keys; and every visible key appears in the order. -/
theorem loadPrefs_sanitized (dk dv : List String) (rv ro : Option (List String)) :
    (∀ k ∈ (loadPrefs dk dv rv ro).1, k ∈ dk) ∧
    (loadPrefs dk dv rv ro).1.Nodup ∧
    (loadPrefs dk dv rv ro).1.Sublist (rv.getD dv) ∧
    (∀ k ∈ (loadPrefs dk dv rv ro).2, k ∈ dk) ∧
    (loadPrefs dk dv rv ro).2.Nodup ∧
    (sanitizeKeys dk (ro.getD dk)).Sublist (ro.getD dk) ∧
    (∀ k ∈ (loadPrefs dk dv rv ro).1, k ∈ (loadPrefs dk dv rv ro).2) := by
  unfold loadPrefs sanitizeKeys
  refine ⟨?_, nodup_sanAux _ _ _, sanAux_sublist _ _ _, ?_, ?_, sanAux_sublist _ _ _, ?_⟩
  · intro k hk
    exact ((mem_sanAux dk _ [] k).mp hk).2.1
  · intro k hk
    rcases List.mem_append.mp hk with h | h
    · exact ((mem_sanAux dk _ [] k).mp h).2.1
    · exact ((mem_sanAux dk _ [] k).mp (List.mem_of_mem_filter h)).2.1
  · refine List.Nodup.append (nodup_sanAux _ _ _) (List.Nodup.filter _ (nodup_sanAux _ _ _)) ?_
    intro k hk1 hk2
    have := List.of_mem_filter hk2
    simp only [decide_eq_true_eq] at this
    exact this hk1
  · intro k hk
    by_cases hbase : k ∈ sanAux dk [] (ro.getD dk)
    · exact List.mem_append.mpr (Or.inl hbase)
    · refine List.mem_append.mpr (Or.inr ?_)
      refine List.mem_filter.mpr ⟨hk, ?_⟩
      simp [hbase]

/-- Witness for `loadPrefs_sanitized` on concrete stored values with an
unknown key and a duplicate. -/
theorem loadPrefs_sanitized_witness :
    "tasks" ∈ (loadPrefs ["leads", "tasks"] ["leads"]
      (some ["tasks", "bogus", "tasks"]) (some ["leads"])).1 ∧
    "tasks" ∈ (["leads", "tasks"] : List String) ∧
    "tasks" ∈ (loadPrefs ["leads", "tasks"] ["leads"]
      (some ["tasks", "bogus", "tasks"]) (some ["leads"])).2 := by
  refine ⟨by decide, ?_, ?_⟩
  · exact (loadPrefs_sanitized ["leads", "tasks"] ["leads"]
      (some ["tasks", "bogus", "tasks"]) (some ["leads"])).1 "tasks" (by decide)
  · exact (loadPrefs_sanitized ["leads", "tasks"] ["leads"]
      (some ["tasks", "bogus", "tasks"]) (some ["leads"])).2.2.2.2.2.2 "tasks" (by decide)

/-- C9 (confirmed).  `LeadStatusFilter` renders the count badge if and
only if the filter value is not `all`, and when rendered the displayed
count is exactly 1. -/
theorem leadStatusFilter_badge (value : String) :
    ((renderLeadStatusFilter value).badgeCount.isSome ↔ value ≠ "all") ∧
    (∀ n, (renderLeadStatusFilter value).badgeCount = some n → n = 1) := by
  unfold renderLeadStatusFilter
  by_cases hv : value = "all"
  · subst hv
    simp
  · simp [hv]

/-- Witness for `leadStatusFilter_badge` at the filter value `New`. -/
theorem leadStatusFilter_badge_witness :
    (renderLeadStatusFilter "New").badgeCount.isSome ∧ (1 : Nat) = 1 :=
  ⟨(leadStatusFilter_badge "New").1.mpr (by decide),
    (leadStatusFilter_badge "New").2 1 (by decide)⟩

theorem isDigitC_digitChar (d : Nat) (hd : d < 10) : isDigitC (digitChar d) = true := by
  interval_cases d <;> decide

theorem digitVal_digitChar (d : Nat) (hd : d < 10) : digitVal (digitChar d) = d := by
  interval_cases d <;> decide

theorem natToCharsAux_eq (n : Nat) : ∀ acc, natToCharsAux n acc = natToChars n ++ acc := by
  induction n using Nat.strong_induction_on with
  | _ n ih =>
      intro acc
      by_cases h : n < 10
      · rw [natToCharsAux, natToCharsAux]
        simp [h, natToChars, natToCharsAux]
      · have hdiv : n / 10 < n := Nat.div_lt_self (by omega) (by omega)
        rw [natToCharsAux]
        simp only [h, dite_false]
        rw [ih (n / 10) hdiv]
        conv_rhs =>
          rw [natToChars, natToCharsAux]
        simp only [h, dite_false]
        rw [ih (n / 10) hdiv]
        simp

theorem natToChars_decomp (n : Nat) (h : ¬n < 10) :
    natToChars n = natToChars (n / 10) ++ [digitChar (n % 10)] := by
  rw [natToChars, natToCharsAux]
  simp only [h, dite_false]
  rw [natToCharsAux_eq]

theorem natToChars_small (n : Nat) (h : n < 10) : natToChars n = [digitChar n] := by
  rw [natToChars, natToCharsAux]
  simp [h]

theorem natToChars_all_digits (n : Nat) : ∀ c ∈ natToChars n, isDigitC c = true := by
  induction n using Nat.strong_induction_on with
  | _ n ih =>
      intro c hc
      by_cases h : n < 10
      · rw [natToChars_small n h] at hc
        simp at hc
        subst hc
        exact isDigitC_digitChar n h
      · rw [natToChars_decomp n h] at hc
        rcases List.mem_append.mp hc with h1 | h1
        · exact ih (n / 10) (Nat.div_lt_self (by omega) (by omega)) c h1
        · simp at h1
          subst h1
          exact isDigitC_digitChar _ (Nat.mod_lt _ (by omega))

theorem natToChars_ne_nil (n : Nat) : natToChars n ≠ [] := by
  by_cases h : n < 10
  · rw [natToChars_small n h]
    simp
  · rw [natToChars_decomp n h]
    simp

theorem parseDigits_run (l : List Char) :
    ∀ rest acc, (∀ c ∈ l, isDigitC c = true) →
      parseDigits (l ++ rest) acc = parseDigits rest (pushDigits acc l) := by
  induction l with
  | nil => intro rest acc _; rfl
  | cons c cs ih =>
      intro rest acc hl
      rw [List.cons_append, parseDigits]
      rw [if_pos (hl c (List.mem_cons_self _ _))]
      exact ih rest _ (fun c hc => hl c (List.mem_cons_of_mem _ hc))

theorem parseDigits_stop (rest : List Char) (acc : Nat) (h : headIsDigit rest = false) :
    parseDigits rest acc = (acc, rest) := by
  cases rest with
  | nil => rfl
  | cons c cs =>
      rw [parseDigits]
      rw [headIsDigit] at h
      rw [if_neg (by simp [h])]

theorem pushDigits_append (acc : Nat) (l1 l2 : List Char) :
    pushDigits acc (l1 ++ l2) = pushDigits (pushDigits acc l1) l2 := by
  unfold pushDigits
  rw [List.foldl_append]

theorem pushDigits_natToChars (n : Nat) : ∀ acc,
    pushDigits acc (natToChars n) = acc * 10 ^ (natToChars n).length + n := by
  induction n using Nat.strong_induction_on with
  | _ n ih =>
      intro acc
      by_cases h : n < 10
      · rw [natToChars_small n h]
        show acc * 10 + digitVal (digitChar n) = acc * 10 ^ 1 + n
        rw [digitVal_digitChar n h]
        ring
      · rw [natToChars_decomp n h, pushDigits_append,
          ih (n / 10) (Nat.div_lt_self (by omega) (by omega)) acc]
        show (acc * 10 ^ (natToChars (n / 10)).length + n / 10) * 10 +
            digitVal (digitChar (n % 10)) =
          acc * 10 ^ (natToChars (n / 10) ++ [digitChar (n % 10)]).length + n
        rw [digitVal_digitChar _ (Nat.mod_lt _ (by omega))]
        rw [List.length_append, List.length_cons, List.length_nil]
        have hmod : n / 10 * 10 + n % 10 = n := by omega
        have hpow : 10 ^ ((natToChars (n / 10)).length + (0 + 1)) =
            10 ^ (natToChars (n / 10)).length * 10 := by
          rw [Nat.zero_add, pow_succ]
        rw [hpow]
        calc (acc * 10 ^ (natToChars (n / 10)).length + n / 10) * 10 + n % 10 =
              acc * (10 ^ (natToChars (n / 10)).length * 10) + (n / 10 * 10 + n % 10) := by ring
          _ = acc * (10 ^ (natToChars (n / 10)).length * 10) + n := by rw [hmod]

theorem pushDigits_natToChars_zero (n : Nat) : pushDigits 0 (natToChars n) = n := by
  rw [pushDigits_natToChars]
  simp

theorem takeStr_run (cs : List Char) :
    ∀ rest, (∀ c ∈ cs, ¬(c = '"') ∧ ¬(c = '\\')) →
      takeStr (cs ++ '"' :: rest) = some (cs, rest) := by
  induction cs with
  | nil =>
      intro rest _
      rw [List.nil_append, takeStr]
      simp
  | cons c cs' ih =>
      intro rest hcs
      obtain ⟨hq, hb⟩ := hcs c (List.mem_cons_self _ _)
      rw [List.cons_append, takeStr, if_neg hq, if_neg hb,
        ih rest (fun c hc => hcs c (List.mem_cons_of_mem _ hc))]

theorem parseValue_num (f n : Nat) (rest : List Char) (hrest : headIsDigit rest = false) :
    parseValue (f + 1) (natToChars n ++ rest) = some (.num n, rest) := by
  obtain ⟨c, cs, hdecomp⟩ : ∃ c cs, natToChars n = c :: cs := by
    cases hnc : natToChars n with
    | nil => exact absurd hnc (natToChars_ne_nil n)
    | cons c cs => exact ⟨c, cs, rfl⟩
  have hcdig : isDigitC c = true := by
    apply natToChars_all_digits n
    rw [hdecomp]
    exact List.mem_cons_self _ _
  have hcsdig : ∀ x ∈ cs, isDigitC x = true := by
    intro x hx
    apply natToChars_all_digits n
    rw [hdecomp]
    exact List.mem_cons_of_mem _ hx
  have hpush : pushDigits (digitVal c) cs = n := by
    have h0 : pushDigits 0 (c :: cs) = n := by
      rw [← hdecomp]
      exact pushDigits_natToChars_zero n
    have hstep : pushDigits 0 (c :: cs) = pushDigits (digitVal c) cs := by
      unfold pushDigits
      rw [List.foldl_cons]
      norm_num
    rw [← h0, hstep]
  rw [hdecomp, List.cons_append]
  rw [parseValue]
  rw [if_pos hcdig]
  rw [parseNumTok]
  rw [parseDigits_run cs rest (digitVal c) hcsdig, parseDigits_stop rest _ hrest, hpush]

theorem parseValue_obj (f : Nat) (X : List Char) :
    parseValue (f + 1) ('{' :: X) =
      (emptyObjTok X).orElse
        (fun _ => (parseFields f X).map (fun p => (Json.obj p.1, p.2))) := by
  rw [parseValue]
  rfl

theorem parseValue_obj_fields (f : Nat) (X : List Char) (h : emptyObjTok X = none) :
    parseValue (f + 1) ('{' :: X) =
      (parseFields f X).map (fun p => (Json.obj p.1, p.2)) := by
  rw [parseValue_obj f X, h]
  rfl

theorem takeStr_key (key : Char) (hq : ¬key = '"') (hb : ¬key = '\\') (W : List Char) :
    takeStr (key :: '"' :: W) = some ([key], W) := by
  rw [takeStr, if_neg hq, if_neg hb]
  rfl

theorem parseFields_numField (h : Nat) (key : Char) (hq : ¬key = '"') (hb : ¬key = '\\')
    (n : Nat) (Z : List Char) (hZ : headIsDigit Z = false) :
    parseFields (h + 3) ('"' :: key :: '"' :: ':' :: (natToChars n ++ Z)) =
      parseFieldsCont (h + 1) (String.mk [key]) (Json.num n) Z := by
  have e1 : h + 3 = (h + 2) + 1 := by omega
  rw [e1, parseFields, takeStr_key key hq hb]
  rw [Option.some_bind]
  have e2 : h + 2 = (h + 1) + 1 := by omega
  rw [e2, parseFieldsAfterKey]
  rw [parseValue_num h n Z hZ]
  rw [Option.some_bind]

theorem parseValue_rect (f : Nat) (r : Rect) (rest : List Char) :
    parseValue (f + 13) (stringifyRect r ++ rest) = some (rectJson r, rest) := by
  have hnorm : stringifyRect r ++ rest =
      '{' :: '"' :: 'x' :: '"' :: ':' :: (natToChars r.x ++
        ',' :: '"' :: 'y' :: '"' :: ':' :: (natToChars r.y ++
          ',' :: '"' :: 'w' :: '"' :: ':' :: (natToChars r.w ++
            ',' :: '"' :: 'h' :: '"' :: ':' :: (natToChars r.h ++ '}' :: rest)))) := by
    simp [stringifyRect, List.cons_append, List.append_assoc]
  rw [hnorm]
  have e1 : f + 13 = (f + 12) + 1 := by omega
  rw [e1, parseValue_obj_fields (f + 12) _ (by rfl)]
  have e2 : f + 12 = (f + 9) + 3 := by omega
  rw [e2, parseFields_numField (f + 9) 'x' (by decide) (by decide) r.x _ (by rfl)]
  rw [parseFieldsCont]
  have e3 : f + 9 = (f + 6) + 3 := by omega
  rw [e3, parseFields_numField (f + 6) 'y' (by decide) (by decide) r.y _ (by rfl)]
  rw [parseFieldsCont]
  have e4 : f + 6 = (f + 3) + 3 := by omega
  rw [e4, parseFields_numField (f + 3) 'w' (by decide) (by decide) r.w _ (by rfl)]
  rw [parseFieldsCont]
  rw [parseFields_numField f 'h' (by decide) (by decide) r.h _ (by rfl)]
  rw [parseFieldsCont]
  rfl

theorem parseValue_rect_fuel (F : Nat) (hF : 13 ≤ F) (r : Rect) (rest : List Char) :
    parseValue F (stringifyRect r ++ rest) = some (rectJson r, rest) := by
  obtain ⟨f, rfl⟩ : ∃ f, F = f + 13 := ⟨F - 13, by omega⟩
  exact parseValue_rect f r rest

theorem jsonSafeKey_chars (k : String) (hk : jsonSafeKey k = true) :
    ∀ c ∈ k.toList, ¬(c = '"') ∧ ¬(c = '\\') := by
  intro c hc
  have := List.all_eq_true.mp hk c hc
  simp only [Bool.not_eq_true', Bool.or_eq_false_iff, decide_eq_false_iff_not] at this
  exact this

theorem parseFields_rectField (f : Nat) (k : String) (hk : jsonSafeKey k = true)
    (r : Rect) (Z : List Char) :
    parseFields (f + 15) ('"' :: (k.toList ++ '"' :: ':' :: (stringifyRect r ++ Z))) =
      parseFieldsCont (f + 13) k (rectJson r) Z := by
  have e1 : f + 15 = (f + 14) + 1 := by omega
  rw [e1, parseFields]
  rw [takeStr_run k.toList (':' :: (stringifyRect r ++ Z)) (jsonSafeKey_chars k hk)]
  rw [Option.some_bind]
  have hmk : String.mk k.toList = k := rfl
  rw [hmk]
  have e2 : f + 14 = (f + 13) + 1 := by omega
  rw [e2, parseFieldsAfterKey]
  rw [parseValue_rect_fuel (f + 13) (by omega) r Z]
  rw [Option.some_bind]

theorem parseFields_config (L : Config) :
    L ≠ [] → (∀ p ∈ L, jsonSafeKey p.1 = true) →
    ∀ g rest, parseFields (3 * L.length + g + 12) (stringifyConfigFields L ++ '}' :: rest) =
      some (L.map (fun p => (p.1, rectJson p.2)), rest) := by
  induction L with
  | nil => intro h; exact absurd rfl h
  | cons hd tl ih =>
      intro _ hkeys g rest
      obtain ⟨k, r⟩ := hd
      cases tl with
      | nil =>
          have hnorm : stringifyConfigFields [(k, r)] ++ '}' :: rest =
              '"' :: (k.toList ++ '"' :: ':' :: (stringifyRect r ++ '}' :: rest)) := by
            simp [stringifyConfigFields, List.cons_append, List.append_assoc]
          rw [hnorm]
          have hf : 3 * ([(k, r)] : Config).length + g + 12 = g + 15 := by
            simp [List.length_cons]
            omega
          rw [hf, parseFields_rectField g k
            (hkeys (k, r) (List.mem_cons_self _ _)) r ('}' :: rest)]
          rw [parseFieldsCont]
          rfl
      | cons hd2 tl2 =>
          have hnorm : stringifyConfigFields ((k, r) :: hd2 :: tl2) ++ '}' :: rest =
              '"' :: (k.toList ++ '"' :: ':' :: (stringifyRect r ++
                ',' :: (stringifyConfigFields (hd2 :: tl2) ++ '}' :: rest))) := by
            simp [stringifyConfigFields, List.cons_append, List.append_assoc]
          rw [hnorm]
          have hf : 3 * ((k, r) :: hd2 :: tl2 : Config).length + g + 12 =
              (3 * (hd2 :: tl2 : Config).length + g) + 15 := by
            simp [List.length_cons]
            omega
          rw [hf, parseFields_rectField (3 * (hd2 :: tl2 : Config).length + g) k
            (hkeys (k, r) (List.mem_cons_self _ _)) r _]
          have hf2 : 3 * (hd2 :: tl2 : Config).length + g + 13 =
              (3 * (hd2 :: tl2 : Config).length + g + 12) + 1 := by omega
          rw [hf2, parseFieldsCont]
          rw [ih (by simp) (fun p hp => hkeys p (List.mem_cons_of_mem _ hp)) g rest]
          rfl

theorem parseValue_config (L : Config) (hkeys : ∀ p ∈ L, jsonSafeKey p.1 = true)
    (F : Nat) (hF : 3 * L.length + 13 ≤ F) (rest : List Char) :
    parseValue F (stringifyConfig L ++ rest) = some (configToJson L, rest) := by
  cases L with
  | nil =>
      obtain ⟨f, rfl⟩ : ∃ f, F = f + 1 := ⟨F - 1, by omega⟩
      have hnorm : stringifyConfig [] ++ rest = '{' :: '}' :: rest := rfl
      rw [hnorm, parseValue_obj f ('}' :: rest)]
      rfl
  | cons hd tl =>
      obtain ⟨g, hg⟩ : ∃ g, F = (3 * (hd :: tl : Config).length + g + 12) + 1 :=
        ⟨F - (3 * (hd :: tl : Config).length + 13), by omega⟩
      obtain ⟨k, r⟩ := hd
      have hhead : ∃ Y, stringifyConfigFields ((k, r) :: tl) = '"' :: Y := by
        cases tl with
        | nil => exact ⟨_, rfl⟩
        | cons hd2 tl2 => exact ⟨_, rfl⟩
      obtain ⟨Y, hY⟩ := hhead
      have hnorm : stringifyConfig ((k, r) :: tl) ++ rest =
          '{' :: (stringifyConfigFields ((k, r) :: tl) ++ '}' :: rest) := by
        simp [stringifyConfig, List.cons_append, List.append_assoc]
      rw [hnorm, hg, parseValue_obj_fields _ _ (by rw [hY]; rfl)]
      rw [parseFields_config ((k, r) :: tl) (by simp) hkeys g rest]
      rfl

theorem natToChars_length_pos (n : Nat) : 1 ≤ (natToChars n).length := by
  cases hnc : natToChars n with
  | nil => exact absurd hnc (natToChars_ne_nil n)
  | cons c cs => simp

theorem stringifyRect_length (r : Rect) : 25 ≤ (stringifyRect r).length := by
  have hx := natToChars_length_pos r.x
  have hy := natToChars_length_pos r.y
  have hw := natToChars_length_pos r.w
  have hh := natToChars_length_pos r.h
  simp only [stringifyRect, List.length_cons, List.length_append, List.length_nil]
  omega

theorem stringifyConfigFields_length (L : Config) (hL : L ≠ []) :
    3 * L.length + 11 ≤ (stringifyConfigFields L).length := by
  induction L with
  | nil => exact absurd rfl hL
  | cons hd tl ih =>
      obtain ⟨k, r⟩ := hd
      cases tl with
      | nil =>
          have hr := stringifyRect_length r
          simp only [stringifyConfigFields, List.length_cons, List.length_append,
            List.length_nil]
          omega
      | cons hd2 tl2 =>
          have hr := stringifyRect_length r
          have hrec := ih (by simp)
          simp only [List.length_cons] at hrec ⊢
          simp only [stringifyConfigFields, List.length_cons, List.length_append]
          omega

theorem stringifyConfig_length (L : Config) (hL : L ≠ []) :
    3 * L.length + 13 ≤ (stringifyConfig L).length := by
  have := stringifyConfigFields_length L hL
  simp only [stringifyConfig, List.length_cons, List.length_append, List.length_nil]
  omega

theorem jsonParse_stringifyConfig (L : Config) (hkeys : ∀ p ∈ L, jsonSafeKey p.1 = true) :
    jsonParse (String.mk (stringifyConfig L)) = some (configToJson L) := by
  by_cases hL : L = []
  · subst hL
    unfold jsonParse
    have h1 : (String.mk (stringifyConfig ([] : Config))).toList = ['{', '}'] := rfl
    have h2 : (String.mk (stringifyConfig ([] : Config))).length = 2 := rfl
    rw [h1, h2]
    have h3 : parseValue (2 + 1) ['{', '}'] = some (.obj [], []) := by
      rw [parseValue_obj 2 ['}']]
      rfl
    rw [h3]
    rfl
  · unfold jsonParse
    have h1 : (String.mk (stringifyConfig L)).toList = stringifyConfig L := rfl
    have h2 : (String.mk (stringifyConfig L)).length = (stringifyConfig L).length := rfl
    rw [h1, h2]
    have hbound := stringifyConfig_length L hL
    have hcfg := parseValue_config L hkeys ((stringifyConfig L).length + 1) (by omega) []
    rw [List.append_nil] at hcfg
    rw [hcfg]

theorem jsonToRect_rectJson (r : Rect) : jsonToRect (rectJson r) = some r := rfl

theorem jsonToConfig_configToJson (L : Config) : jsonToConfig (configToJson L) = some L := by
  show jsonFieldsToConfig (L.map (fun p => (p.1, rectJson p.2))) = some L
  induction L with
  | nil => rfl
  | cons hd tl ih =>
      obtain ⟨k, r⟩ := hd
      rw [List.map_cons, jsonFieldsToConfig]
      rw [jsonToRect_rectJson, ih]

/-- C7 (confirmed).  Layout persistence round-trips: for every layout
configuration whose keys need no JSON escaping (true of all widget
keys), parsing the `JSON.stringify` output of the configuration, as
`parseWidgetLayouts` does for string-valued `layout_view`, yields the
JSON value of the original configuration, and that value decodes back
to exactly the original configuration. -/
theorem parseWidgetLayouts_roundtrip (L : Config)
    (hkeys : ∀ p ∈ L, jsonSafeKey p.1 = true) :
    parseWidgetLayouts (.strVal (String.mk (stringifyConfig L))) = configToJson L ∧
    jsonToConfig (configToJson L) = some L := by
  constructor
  · rw [parseWidgetLayouts, jsonParse_stringifyConfig L hkeys]
    rfl
  · exact jsonToConfig_configToJson L

/-- Witness for `parseWidgetLayouts_roundtrip` on a concrete one-widget
configuration. -/
theorem parseWidgetLayouts_roundtrip_witness :
    (∀ p ∈ ([("leads", ⟨0, 0, 3, 2⟩)] : Config), jsonSafeKey p.1 = true) ∧
    parseWidgetLayouts (.strVal (String.mk (stringifyConfig [("leads", ⟨0, 0, 3, 2⟩)]))) =
      configToJson [("leads", ⟨0, 0, 3, 2⟩)] := by
  constructor
  · decide
  · exact (parseWidgetLayouts_roundtrip [("leads", ⟨0, 0, 3, 2⟩)] (by decide)).1

/-- C8 (confirmed).  `parseWidgetLayouts` is total and never throws: an
absent or falsy stored value yields the empty configuration, an object
value is returned, a string parsing to a non-null object is returned,
and a string parsing to anything else, or failing to parse (the thrown
exception is caught), yields the empty configuration. -/
theorem parseWidgetLayouts_total :
    (parseWidgetLayouts .absent = .obj []) ∧
    (∀ j, parseWidgetLayouts (.objVal j) = j) ∧
    (∀ s, jsonParse s = none → parseWidgetLayouts (.strVal s) = .obj []) ∧
    (∀ s j, jsonParse s = some j → isObjLike j = false →
      parseWidgetLayouts (.strVal s) = .obj []) ∧
    (∀ s j, jsonParse s = some j → isObjLike j = true →
      parseWidgetLayouts (.strVal s) = j) := by
  refine ⟨rfl, fun j => rfl, ?_, ?_, ?_⟩
  · intro s hs
    rw [parseWidgetLayouts, hs]
  · intro s j hs hobj
    rw [parseWidgetLayouts, hs]
    simp [hobj]
  · intro s j hs hobj
    rw [parseWidgetLayouts, hs]
    simp [hobj]

/-- Witness for `parseWidgetLayouts_total`: the empty configuration
comes back for an absent value, for the valid non-object JSON string
`42`, and for the malformed legacy string `list`; a stored object and
a string of a JSON object are returned as parsed. -/
theorem parseWidgetLayouts_total_witness :
    parseWidgetLayouts .absent = .obj [] ∧
    parseWidgetLayouts (.strVal "42") = .obj [] ∧
    parseWidgetLayouts (.strVal "list") = .obj [] ∧
    parseWidgetLayouts (.objVal (.obj [("a", .num 1)])) = .obj [("a", .num 1)] ∧
    parseWidgetLayouts (.strVal "{}") = .obj [] := by
  refine ⟨parseWidgetLayouts_total.1, ?_, ?_, parseWidgetLayouts_total.2.1 _, ?_⟩
  · exact parseWidgetLayouts_total.2.2.2.1 "42" (.num 42) (by rfl) (by rfl)
  · exact parseWidgetLayouts_total.2.2.1 "list" (by rfl)
  · exact parseWidgetLayouts_total.2.2.2.2 "{}" (.obj []) (by rfl) (by rfl)
